import Mathlib

/-!
Verification development for the barcodesDB k-mer query engine
(`query_substring_bitmap_stream_windowed_mix_complete.cpp`, `query_kmer_bitmap.cpp`,
`gen_kmer_bitmap.cpp`).  All definitions are shallow embeddings of the C++ source:
unsigned 64-bit arithmetic is `Nat` with explicit `% 2 ^ 64` where overflow matters,
roaring bitmaps are membership functions `Nat → Bool`, fallible operations return
`Option`.
-/

namespace BarcodesDB

/-- Sentinel `UINT64_MAX`, used by the source for "not started". -/
def U64MAX : Nat := 2 ^ 64 - 1

/-- Embeds `pow4` from the stream tool: `(n<=0) ? 1 : (1ULL << (2*n))`. -/
def pow4 (n : Nat) : Nat := if n = 0 then 1 else 1 <<< (2 * n)

theorem pow4_eq (n : Nat) : pow4 n = 4 ^ n := by
  unfold pow4
  rcases Nat.eq_zero_or_pos n with h | h
  · simp [h]
  · rw [if_neg (by omega), Nat.one_shiftLeft, Nat.pow_mul]

theorem pow4_pos (n : Nat) : 0 < pow4 n := by
  rw [pow4_eq]; exact Nat.pos_pow_of_pos n (by omega)

theorem pow4_le_pow4 {m n : Nat} (h : m ≤ n) : pow4 m ≤ pow4 n := by
  rw [pow4_eq, pow4_eq]; exact Nat.pow_le_pow_right (by omega) h

/-! ## DNA filters (`passes_gc_percent`, `contains_sub`, `leaf_ok`) -/

/-- One step of the gc-count loop body: digit `v &&& 3` counts iff it is 1 or 2. -/
def gc_digit (v : Nat) : Nat := if v &&& 3 = 1 ∨ v &&& 3 = 2 then 1 else 0

/-- The gc counter of `passes_gc_percent`: sums `gc_digit` over the `k` low 2-bit
digits of `v`, shifting right by 2 each iteration exactly as the C++ loop does. -/
def gc_count (v : Nat) : Nat → Nat
  | 0 => 0
  | k + 1 => gc_digit v + gc_count (v >>> 2) k

/-- Embeds `passes_gc_percent(v,k,gcMinPct,gcMaxPct)`:
`gc*100 ∈ [gcMinPct*k, gcMaxPct*k]` with exact integer arithmetic. -/
def passes_gc_percent (v : Nat) (k gcMinPct gcMaxPct : Nat) : Bool :=
  let gc := gc_count v k
  let lhs := gc * 100
  let lo := gcMinPct * k
  let hi := gcMaxPct * k
  decide (lo ≤ lhs) && decide (lhs ≤ hi)

/-- Embeds `struct Pattern { uint64_t mask, bits; }`. -/
structure Pattern where
  mask : Nat
  bits : Nat
deriving DecidableEq

/-- Embeds `contains_sub`: `v` matches iff some pattern gives `(v ^ bits) & mask == 0`. -/
def contains_sub (v : Nat) (pats : List Pattern) : Bool :=
  pats.any (fun p => ((v ^^^ p.bits) &&& p.mask) = 0)

/-- Embeds `leaf_ok`: the leaf filter applied to every candidate `kout`-mer. -/
def leaf_ok (vX : Nat) (kout gcMinPct gcMaxPct : Nat)
    (substring_set : Bool) (patterns : List Pattern) : Bool :=
  if ¬ passes_gc_percent vX kout gcMinPct gcMaxPct then false
  else if substring_set ∧ ¬ contains_sub vX patterns then false
  else true

/-! ## Expansion state machine (`init_state_first`, `advance_state`, `make_value`) -/

/-- The `(L, left_idx, right_idx)` expansion state of the stream tool. -/
structure ExpSt where
  L : Nat
  left_idx : Nat
  right_idx : Nat
deriving DecidableEq

/-- Embeds `init_state_first(d)`: `L = d`, `left_idx = right_idx = 0`. -/
def init_state_first (d : Nat) : ExpSt := ⟨d, 0, 0⟩

/-- Embeds `advance_state`.  The C++ mutates the state and returns a `bool`;
here we return the pair (continue?, mutated state).  When it returns `false`
the mutated state is `(0,0,0)`, exactly as in the source (both indices have
been reset before the `Li == 0` test). -/
def advance_state (d : Nat) (s : ExpSt) : Bool × ExpSt :=
  if s.right_idx + 1 < pow4 (d - s.L) then (true, ⟨s.L, s.left_idx, s.right_idx + 1⟩)
  else if s.left_idx + 1 < pow4 s.L then (true, ⟨s.L, s.left_idx + 1, 0⟩)
  else if s.L = 0 then (false, ⟨s.L, 0, 0⟩)
  else (true, ⟨s.L - 1, 0, 0⟩)

/-- Embeds `make_value(parentB,k0,kout,L,left_idx,right_idx)`:
`(left_idx << (2*(k0+R))) | (parentB << (2*R)) | right_idx` in `uint64`
arithmetic, with `R = (kout - k0) - L`. -/
def make_value (parentB k0 kout L left_idx right_idx : Nat) : Nat :=
  let d := kout - k0
  let R := d - L
  ((left_idx <<< (2 * (k0 + R))) ||| (parentB <<< (2 * R)) ||| right_idx) % 2 ^ 64

/-- A structurally well-formed expansion state for distance `d`. -/
def validSt (d : Nat) (s : ExpSt) : Prop :=
  s.L ≤ d ∧ s.left_idx < pow4 s.L ∧ s.right_idx < pow4 (d - s.L)

instance (d : Nat) (s : ExpSt) : Decidable (validSt d s) := by
  unfold validSt; infer_instance

/-- Total number of states the machine visits for distance `d`. -/
def stTotal (d : Nat) : Nat := (d + 1) * pow4 d

/-- Position of a state in the documented enumeration order
(`L` descending, then `left_idx`, then `right_idx`). -/
def stRank (d : Nat) (s : ExpSt) : Nat :=
  (d - s.L) * pow4 d + s.left_idx * pow4 (d - s.L) + s.right_idx

/-- The state at a given position of the documented enumeration order
(`q = n / 4^d` is the number of completed `L`-levels, `r` the offset inside
the current level). -/
def stateOfRank (d n : Nat) : ExpSt :=
  ⟨d - n / pow4 d, n % pow4 d / pow4 (n / pow4 d), n % pow4 d % pow4 (n / pow4 d)⟩

theorem pow4_mul_sub {L d : Nat} (h : L ≤ d) : pow4 L * pow4 (d - L) = pow4 d := by
  rw [pow4_eq, pow4_eq, pow4_eq, ← pow_add]
  congr 1; omega

theorem inner_lt {d : Nat} {s : ExpSt} (hv : validSt d s) :
    s.left_idx * pow4 (d - s.L) + s.right_idx < pow4 d := by
  obtain ⟨h1, h2, h3⟩ := hv
  have hQ := pow4_pos (d - s.L)
  have hmul : pow4 s.L * pow4 (d - s.L) = pow4 d := pow4_mul_sub h1
  have : (s.left_idx + 1) * pow4 (d - s.L) ≤ pow4 d := by
    calc (s.left_idx + 1) * pow4 (d - s.L) ≤ pow4 s.L * pow4 (d - s.L) :=
          Nat.mul_le_mul_right _ h2
      _ = pow4 d := hmul
  nlinarith [Nat.mul_le_mul_right (pow4 (d - s.L)) h2]

theorem stRank_lt_stTotal {d : Nat} {s : ExpSt} (hv : validSt d s) :
    stRank d s < stTotal d := by
  have h1 := hv.1
  have h2 := inner_lt hv
  unfold stRank stTotal
  have : (d - s.L) * pow4 d + (s.left_idx * pow4 (d - s.L) + s.right_idx)
      < (d - s.L + 1) * pow4 d := by nlinarith
  have hle : (d - s.L + 1) * pow4 d ≤ (d + 1) * pow4 d :=
    Nat.mul_le_mul_right _ (by omega)
  omega

theorem stateOfRank_stRank {d : Nat} {s : ExpSt} (hv : validSt d s) :
    stateOfRank d (stRank d s) = s := by
  obtain ⟨h1, h2, h3⟩ := hv
  have hP := pow4_pos d
  have hQ := pow4_pos (d - s.L)
  have hin : s.left_idx * pow4 (d - s.L) + s.right_idx < pow4 d := inner_lt ⟨h1, h2, h3⟩
  have hrank : stRank d s
      = pow4 d * (d - s.L) + (s.left_idx * pow4 (d - s.L) + s.right_idx) := by
    unfold stRank; ring
  have hdiv : stRank d s / pow4 d = d - s.L := by
    rw [hrank, Nat.mul_add_div hP, Nat.div_eq_of_lt hin]; omega
  have hmod : stRank d s % pow4 d = s.left_idx * pow4 (d - s.L) + s.right_idx := by
    rw [hrank, Nat.mul_add_mod, Nat.mod_eq_of_lt hin]
  have hx : s.left_idx * pow4 (d - s.L) + s.right_idx
      = pow4 (d - s.L) * s.left_idx + s.right_idx := by ring
  obtain ⟨L, li, ri⟩ := s
  dsimp only at hdiv hmod hx hin h1 h2 h3 hQ
  unfold stateOfRank
  simp only [hdiv, hmod, ExpSt.mk.injEq]
  refine ⟨by omega, ?_, ?_⟩
  · rw [hx, Nat.mul_add_div hQ, Nat.div_eq_of_lt h3]; omega
  · rw [hx, Nat.mul_add_mod, Nat.mod_eq_of_lt h3]

theorem stRank_stateOfRank {d n : Nat} (h : n < stTotal d) :
    stRank d (stateOfRank d n) = n ∧ validSt d (stateOfRank d n) := by
  have hP := pow4_pos d
  have h1 : n < (d + 1) * pow4 d := h
  have h2 : n < pow4 d * (d + 1) := by rw [Nat.mul_comm]; exact h1
  have hq : n / pow4 d ≤ d := Nat.lt_succ_iff.mp (Nat.div_lt_of_lt_mul h2)
  have hr : n % pow4 d < pow4 d := Nat.mod_lt _ hP
  have hq2 := pow4_pos (n / pow4 d)
  have hdL : d - (d - n / pow4 d) = n / pow4 d := Nat.sub_sub_self hq
  have hsplit : pow4 (d - n / pow4 d) * pow4 (n / pow4 d) = pow4 d := by
    have := pow4_mul_sub (L := d - n / pow4 d) (d := d) (by omega)
    rwa [hdL] at this
  constructor
  · show (d - (d - n / pow4 d)) * pow4 d
        + n % pow4 d / pow4 (n / pow4 d) * pow4 (d - (d - n / pow4 d))
        + n % pow4 d % pow4 (n / pow4 d) = n
    rw [hdL]
    have e1 : n % pow4 d / pow4 (n / pow4 d) * pow4 (n / pow4 d)
        + n % pow4 d % pow4 (n / pow4 d) = n % pow4 d :=
      Nat.div_add_mod' _ _
    have e2 : n / pow4 d * pow4 d + n % pow4 d = n := Nat.div_add_mod' n _
    rw [Nat.add_assoc, e1, e2]
  · refine ⟨?_, ?_, ?_⟩
    · show d - n / pow4 d ≤ d
      exact Nat.sub_le _ _
    · show n % pow4 d / pow4 (n / pow4 d) < pow4 (d - n / pow4 d)
      rw [Nat.div_lt_iff_lt_mul hq2]
      calc n % pow4 d < pow4 d := hr
        _ = pow4 (d - n / pow4 d) * pow4 (n / pow4 d) := hsplit.symm
    · show n % pow4 d % pow4 (n / pow4 d) < pow4 (d - (d - n / pow4 d))
      rw [hdL]
      exact Nat.mod_lt _ hq2

theorem advance_state_true {d : Nat} {s : ExpSt} (hv : validSt d s)
    (hlt : stRank d s + 1 < stTotal d) :
    (advance_state d s).1 = true ∧ validSt d (advance_state d s).2 ∧
      stRank d (advance_state d s).2 = stRank d s + 1 := by
  obtain ⟨L, li, ri⟩ := s
  obtain ⟨hL, hli, hri⟩ := hv
  dsimp only at hL hli hri
  by_cases h1 : ri + 1 < pow4 (d - L)
  · have hres : advance_state d ⟨L, li, ri⟩ = (true, ⟨L, li, ri + 1⟩) := by
      unfold advance_state; dsimp only; rw [if_pos h1]
    rw [hres]
    exact ⟨rfl, ⟨hL, hli, h1⟩, by unfold stRank; dsimp only; omega⟩
  · by_cases h2 : li + 1 < pow4 L
    · have hres : advance_state d ⟨L, li, ri⟩ = (true, ⟨L, li + 1, 0⟩) := by
        unfold advance_state; dsimp only; rw [if_neg h1, if_pos h2]
      rw [hres]
      refine ⟨rfl, ⟨hL, h2, pow4_pos _⟩, ?_⟩
      unfold stRank; dsimp only
      have hmul : (li + 1) * pow4 (d - L) = li * pow4 (d - L) + pow4 (d - L) := by ring
      omega
    · by_cases h3 : L = 0
      · exfalso
        subst h3
        have hq : pow4 0 = 1 := rfl
        have hli0 : li = 0 := by omega
        unfold stRank stTotal at hlt
        dsimp only at hlt
        have hmul : (d + 1) * pow4 d = d * pow4 d + pow4 d := by ring
        simp only [Nat.sub_zero, hli0] at hlt hri h1
        omega
      · have hres : advance_state d ⟨L, li, ri⟩ = (true, ⟨L - 1, 0, 0⟩) := by
          unfold advance_state; dsimp only; rw [if_neg h1, if_neg h2, if_neg h3]
        rw [hres]
        refine ⟨rfl, ⟨?_, ?_, ?_⟩, ?_⟩
        · show L - 1 ≤ d; omega
        · show 0 < pow4 (L - 1); exact pow4_pos _
        · show 0 < pow4 (d - (L - 1)); exact pow4_pos _
        show (d - (L - 1)) * pow4 d + 0 * pow4 (d - (L - 1)) + 0
            = (d - L) * pow4 d + li * pow4 (d - L) + ri + 1
        have hPQ : pow4 L * pow4 (d - L) = pow4 d := pow4_mul_sub hL
        have hliq : li = pow4 L - 1 := by omega
        have hsub : (pow4 L - 1) * pow4 (d - L) = pow4 L * pow4 (d - L) - pow4 (d - L) := by
          rw [Nat.sub_mul, one_mul]
        have hdd : d - (L - 1) = (d - L) + 1 := by omega
        have hexp : ((d - L) + 1) * pow4 d = (d - L) * pow4 d + pow4 d := by ring
        have hQpos := pow4_pos (d - L)
        have hQle : pow4 (d - L) ≤ pow4 d := pow4_le_pow4 (by omega)
        rw [hdd, hliq]
        omega

theorem advance_state_last {d : Nat} {s : ExpSt} (hv : validSt d s)
    (heq : stRank d s + 1 = stTotal d) :
    advance_state d s = (false, ⟨0, 0, 0⟩) := by
  obtain ⟨L, li, ri⟩ := s
  obtain ⟨hL, hli, hri⟩ := hv
  dsimp only at hL hli hri
  have hinner : li * pow4 (d - L) + ri < pow4 d :=
    inner_lt (d := d) (s := ⟨L, li, ri⟩) ⟨hL, hli, hri⟩
  have hL0 : L = 0 := by
    by_contra hc
    unfold stRank stTotal at heq
    dsimp only at heq
    have h1 : (d - L) + 1 ≤ d := by omega
    have h2 : ((d - L) + 1) * pow4 d ≤ d * pow4 d := Nat.mul_le_mul_right _ h1
    have h3 : ((d - L) + 1) * pow4 d = (d - L) * pow4 d + pow4 d := by ring
    have h4 : (d + 1) * pow4 d = d * pow4 d + pow4 d := by ring
    have := pow4_pos d
    omega
  subst hL0
  have hq : pow4 0 = 1 := rfl
  have hli0 : li = 0 := by omega
  subst hli0
  have hri' : ri + 1 = pow4 d := by
    unfold stRank stTotal at heq
    dsimp only at heq
    have h4 : (d + 1) * pow4 d = d * pow4 d + pow4 d := by ring
    simp only [Nat.sub_zero] at heq hri ⊢
    omega
  unfold advance_state
  dsimp only
  rw [Nat.sub_zero, if_neg (by omega), if_neg (by rw [hq]; omega), if_pos rfl]

/-- The states the expansion inner loop visits, starting at `s`, if it is
allowed at most `fuel` further calls of `advance_state`.  With enough fuel
this is the full trajectory until `advance_state` returns `false`. -/
def orbitFrom (d : Nat) : Nat → ExpSt → List ExpSt
  | 0, s => [s]
  | fuel + 1, s =>
    match advance_state d s with
    | (true, t) => s :: orbitFrom d fuel t
    | (false, _) => [s]

/-- All states visited by the expansion machine for distance `d`, from
`init_state_first d` until `advance_state` returns `false`.  The fuel
`stTotal d` is provably sufficient (`emit_states_eq`). -/
def emit_states (d : Nat) : List ExpSt := orbitFrom d (stTotal d) (init_state_first d)

/-- The `kout`-mer values the machine emits for a parent anchor `B`, in order:
`make_value` applied at every visited state. -/
def child_values (k0 kout : Nat) (B : Nat) : List Nat :=
  (emit_states (kout - k0)).map (fun s => make_value B k0 kout s.L s.left_idx s.right_idx)

theorem orbitFrom_eq {d : Nat} (fuel : Nat) :
    ∀ s : ExpSt, validSt d s → stTotal d ≤ stRank d s + fuel + 1 →
      orbitFrom d fuel s = (List.range' (stRank d s) (stTotal d - stRank d s)).map
        (stateOfRank d) := by
  induction fuel with
  | zero =>
    intro s hv hf
    have hlt := stRank_lt_stTotal hv
    have h1 : stTotal d - stRank d s = 1 := by omega
    rw [h1]
    simp [orbitFrom, stateOfRank_stRank hv]
  | succ fuel ih =>
    intro s hv hf
    have hlt := stRank_lt_stTotal hv
    by_cases hlast : stRank d s + 1 = stTotal d
    · have hres := advance_state_last hv hlast
      have h1 : stTotal d - stRank d s = 1 := by omega
      rw [h1]
      unfold orbitFrom
      rw [hres]
      simp [stateOfRank_stRank hv]
    · have hstep := advance_state_true hv (by omega)
      obtain ⟨hb, hv2, hr2⟩ := hstep
      have hres : advance_state d s = (true, (advance_state d s).2) := by
        cases hads : advance_state d s with
        | mk b t => rw [hads] at hb; cases hb; rfl
      unfold orbitFrom
      rw [hres]
      dsimp only
      rw [ih _ hv2 (by omega), hr2]
      have hsplit : stTotal d - stRank d s = (stTotal d - (stRank d s + 1)) + 1 := by omega
      rw [hsplit, List.range'_succ _ _ 1]
      simp [stateOfRank_stRank hv]

theorem stRank_init (d : Nat) : stRank d (init_state_first d) = 0 := by
  unfold stRank init_state_first
  simp

theorem validSt_init (d : Nat) : validSt d (init_state_first d) :=
  ⟨Nat.le_refl d, pow4_pos _, pow4_pos _⟩

theorem emit_states_eq (d : Nat) :
    emit_states d = (List.range' 0 (stTotal d)).map (stateOfRank d) := by
  unfold emit_states
  have h := orbitFrom_eq (d := d) (stTotal d) (init_state_first d) (validSt_init d)
    (by rw [stRank_init]; omega)
  rw [h, stRank_init]
  simp

theorem emit_states_length (d : Nat) : (emit_states d).length = (d + 1) * 4 ^ d := by
  rw [emit_states_eq]
  simp [stTotal, pow4_eq]

theorem emit_states_nodup (d : Nat) : (emit_states d).Nodup := by
  rw [emit_states_eq]
  apply List.Nodup.map_on
  · intro x hx y hy hxy
    rw [List.mem_range'_1] at hx hy
    have hxlt : x < stTotal d := by omega
    have hylt : y < stTotal d := by omega
    have hxr := (stRank_stateOfRank hxlt).1
    have hyr := (stRank_stateOfRank hylt).1
    rw [← hxr, ← hyr, hxy]
  · simp [List.nodup_range']

theorem emit_states_mem (d : Nat) (s : ExpSt) :
    s ∈ emit_states d ↔ validSt d s := by
  rw [emit_states_eq]
  constructor
  · intro h
    obtain ⟨n, hn, hns⟩ := List.mem_map.mp h
    rw [List.mem_range'_1] at hn
    rw [← hns]
    exact (stRank_stateOfRank (by omega)).2
  · intro hv
    apply List.mem_map.mpr
    refine ⟨stRank d s, ?_, stateOfRank_stRank hv⟩
    rw [List.mem_range'_1]
    exact ⟨Nat.zero_le _, by simpa using stRank_lt_stTotal hv⟩

/-- `n` repeated applications of `advance_state`; `none` once some application
has returned `false` (the machine is exhausted). -/
def advance_iter (d : Nat) : Nat → ExpSt → Option ExpSt
  | 0, s => some s
  | n + 1, s =>
    match advance_state d s with
    | (true, t) => advance_iter d n t
    | (false, _) => none

theorem advance_iter_exhausts {d : Nat} :
    ∀ k s, validSt d s → stTotal d = stRank d s + k + 1 →
      advance_iter d (k + 1) s = none := by
  intro k
  induction k with
  | zero =>
    intro s hv hk
    have hres := advance_state_last hv (by omega)
    unfold advance_iter
    rw [hres]
  | succ k ih =>
    intro s hv hk
    obtain ⟨hb, hv2, hr2⟩ := advance_state_true hv (by omega)
    have hres : advance_state d s = (true, (advance_state d s).2) := by
      cases hads : advance_state d s with
      | mk b t => rw [hads] at hb; cases hb; rfl
    show advance_iter d (k + 1 + 1) s = none
    unfold advance_iter
    rw [hres]
    dsimp only
    exact ih _ hv2 (by omega)

/-! ## Little-endian packing (`push_uXX_le`, `read_uXX_le`) and base64url -/

theorem shl_or_eq (k : Nat) : ∀ x y : Nat, y < 2 ^ k → (x <<< k) ||| y = x * 2 ^ k + y := by
  induction k with
  | zero => intro x y h; interval_cases y; simp
  | succ k ih =>
    intro x y h
    have hy2 : y / 2 < 2 ^ k := by omega
    have e1 : x <<< (k + 1) = Nat.bit false (x <<< k) := by
      rw [Nat.shiftLeft_succ, Nat.bit_false]
    have e2 : y = Nat.bit (decide (y % 2 = 1)) (y / 2) := by
      rcases Nat.mod_two_eq_zero_or_one y with h2 | h2 <;> simp [h2, Nat.bit] <;> omega
    rw [e1]
    conv_lhs => rw [e2]
    rw [Nat.lor_bit, ih _ _ hy2]
    have e3 : x * (2 ^ k * 2) = 2 * (x * 2 ^ k) := by ring
    rcases Nat.mod_two_eq_zero_or_one y with h2 | h2 <;>
      simp [h2, Nat.bit, Nat.pow_succ] <;> omega

/-- The `n` little-endian bytes of `x`: byte `i` is `(x >> (8*i)) & 0xFF`.
`push_u16_le`, `push_u32_le`, `push_u64_le` of the source are `push_le x 2/4/8`. -/
def push_le (x : Nat) : Nat → List Nat
  | 0 => []
  | n + 1 => push_le x n ++ [(x >>> (8 * n)) &&& 255]

/-- The value read by the `read_uXX_le` loop: `n` bytes at offset `off`,
little-endian, out-of-range bytes read as 0 (the bounds check is separate). -/
def le_val (b : List Nat) (off : Nat) : Nat → Nat
  | 0 => 0
  | n + 1 => le_val b off n ||| ((b.getD (off + n) 0) <<< (8 * n))

/-- Embeds `read_u16_le`: bounds check then combine 2 bytes. -/
def read_u16_le (b : List Nat) (off : Nat) : Option Nat :=
  if off + 2 ≤ b.length then some (le_val b off 2) else none

/-- Embeds `read_u32_le`: bounds check then combine 4 bytes. -/
def read_u32_le (b : List Nat) (off : Nat) : Option Nat :=
  if off + 4 ≤ b.length then some (le_val b off 4) else none

/-- Embeds `read_u64_le`: bounds check then combine 8 bytes. -/
def read_u64_le (b : List Nat) (off : Nat) : Option Nat :=
  if off + 8 ≤ b.length then some (le_val b off 8) else none

/-- The base64url alphabet `B64URL` of the source. -/
def B64URL : List Char :=
  "ABCDEFGHIJKLMNOPQRSTUVWXYZabcdefghijklmnopqrstuvwxyz0123456789-_".toList

/-- The `while (bits >= 6)` emission loop of `b64url_encode`: emit 6-bit groups
from the top of `buf` until fewer than 6 bits remain. -/
def sext_emit (buf : Nat) (bits : Nat) : List Nat :=
  if 6 ≤ bits then ((buf >>> (bits - 6)) &&& 63) :: sext_emit buf (bits - 6) else []
termination_by bits
decreasing_by omega

/-- The byte loop of `b64url_encode` producing 6-bit indices; `buf` is the
`uint32` accumulator, `bits` the pending bit count.  On end of input, the
final partial group `(buf << (6-bits)) & 63` is flushed when `bits > 0`. -/
def b64_encode_go : List Nat → Nat → Nat → List Nat
  | [], buf, bits => if 0 < bits then [(buf <<< (6 - bits)) &&& 63] else []
  | c :: rest, buf, bits =>
    sext_emit (((buf <<< 8) ||| c) % 2 ^ 32) (bits + 8) ++
      b64_encode_go rest (((buf <<< 8) ||| c) % 2 ^ 32) ((bits + 8) % 6)

/-- Embeds `b64url_encode`: 6-bit indices mapped through the alphabet. -/
def b64url_encode (bs : List Nat) : List Char :=
  (b64_encode_go bs 0 0).map (fun i => B64URL.getD i 'A')

/-- The decode table `T`: position of a character in the alphabet, `none`
for characters outside it (C++ `-1`). -/
def b64_char_index (ch : Char) : Option Nat := B64URL.findIdx? (fun c => c = ch)

/-- The character loop of `b64url_decode`: accumulate 6 bits per character into
the `uint32` accumulator, emit a byte whenever at least 8 bits are pending;
any character outside the alphabet fails the whole decode. -/
def b64_decode_go : List Char → Nat → Nat → Option (List Nat)
  | [], _, _ => some []
  | ch :: rest, buf, bits =>
    match b64_char_index ch with
    | none => none
    | some v =>
      if 8 ≤ bits + 6 then
        match b64_decode_go rest (((buf <<< 6) ||| v) % 2 ^ 32) (bits + 6 - 8) with
        | none => none
        | some out => some ((((((buf <<< 6) ||| v) % 2 ^ 32) >>> (bits + 6 - 8)) &&& 255) :: out)
      else
        b64_decode_go rest (((buf <<< 6) ||| v) % 2 ^ 32) (bits + 6)

/-- Embeds `b64url_decode`. -/
def b64url_decode (s : List Char) : Option (List Nat) := b64_decode_go s 0 0

/-! ## BCW2 window cursor (`WindowCursor`, `make_cursor_bcw2`, `parse_cursor_bcw2`) -/

/-- Embeds `WindowCursor::LaneState` with the C++ member initializers as
default field values. -/
structure LaneState where
  active : Bool := false
  perm_pos : Nat := 0
  mode : Nat := 0
  after : Nat := U64MAX
  parent_anchor : Nat := U64MAX
  child_present : Bool := false
  L : Nat := 0
  left_idx : Nat := 0
  right_idx : Nat := 0
deriving DecidableEq

/-- Embeds `WindowCursor` with the C++ member initializers as defaults. -/
structure WindowCursor where
  present : Bool := false
  flags : Nat := 0
  k0 : Nat := 0
  kout : Nat := 0
  d : Nat := 0
  numShards : Nat := 0
  seed : Nat := 0
  next_perm_pos : Nat := 0
  window : Nat := 0
  burst : Nat := 0
  lanes : List LaneState := []
deriving DecidableEq

/-- The bytes `make_cursor_bcw2` appends for one lane. -/
def serialize_lane (ln : LaneState) : List Nat :=
  (if ln.active then [1] else [0]) ++
    (if ln.active then
      push_le ln.perm_pos 4 ++ [ln.mode] ++
        (if ln.mode = 0 then push_le ln.after 8
         else
          push_le ln.parent_anchor 8 ++ (if ln.child_present then [1] else [0]) ++
            (if ln.child_present then
              [ln.L] ++ push_le ln.left_idx 8 ++ push_le ln.right_idx 8
             else []))
     else [])

/-- The byte image built by `make_cursor_bcw2` before base64url encoding:
magic `BCW2`, flags, `k0`, `kout`, `d`, then `numShards:u32`, `seed:u64`,
`next_perm_pos:u32`, `window:u16`, `burst:u16`, `lane_count:u16`, lanes. -/
def cursor_bytes (c : WindowCursor) : List Nat :=
  [66, 67, 87, 50, c.flags, c.k0, c.kout, c.d] ++
    push_le c.numShards 4 ++ push_le c.seed 8 ++ push_le c.next_perm_pos 4 ++
    push_le c.window 2 ++ push_le c.burst 2 ++ push_le c.lanes.length 2 ++
    c.lanes.flatMap serialize_lane

/-- Embeds `make_cursor_bcw2`: serialize then base64url-encode. -/
def make_cursor_bcw2 (c : WindowCursor) : List Char := b64url_encode (cursor_bytes c)

/-- The lane loop of `parse_cursor_bcw2`: parse `n` lanes starting at `off`,
returning the lanes and the final offset.  Inactive lanes are the default
`LaneState` (C++ `resize` + `continue`). -/
def parse_lanes (b : List Nat) : Nat → Nat → Option (List LaneState × Nat)
  | off, 0 => some ([], off)
  | off, n + 1 =>
    if off + 1 ≤ b.length then
      if b.getD off 0 = 0 then
        match parse_lanes b (off + 1) n with
        | some (ls, off2) => some (({} : LaneState) :: ls, off2)
        | none => none
      else
        if off + 1 + 4 + 1 ≤ b.length then
          match read_u32_le b (off + 1) with
          | none => none
          | some pp =>
            let mode := b.getD (off + 5) 0
            if mode = 0 then
              match read_u64_le b (off + 6) with
              | none => none
              | some af =>
                match parse_lanes b (off + 14) n with
                | some (ls, off2) =>
                  some (({ active := true, perm_pos := pp, mode := 0, after := af } :
                    LaneState) :: ls, off2)
                | none => none
            else
              match read_u64_le b (off + 6) with
              | none => none
              | some pa =>
                if off + 14 + 1 ≤ b.length then
                  if b.getD (off + 14) 0 = 0 then
                    match parse_lanes b (off + 15) n with
                    | some (ls, off2) =>
                      some (({ active := true, perm_pos := pp, mode := mode,
                               parent_anchor := pa, child_present := false,
                               L := 0, left_idx := 0, right_idx := 0 } : LaneState) :: ls,
                            off2)
                    | none => none
                  else
                    if off + 15 + 1 ≤ b.length then
                      match read_u64_le b (off + 16), read_u64_le b (off + 24) with
                      | some li, some ri =>
                        match parse_lanes b (off + 32) n with
                        | some (ls, off2) =>
                          some (({ active := true, perm_pos := pp, mode := mode,
                                   parent_anchor := pa, child_present := true,
                                   L := b.getD (off + 15) 0, left_idx := li,
                                   right_idx := ri } : LaneState) :: ls, off2)
                        | none => none
                      | _, _ => none
                    else none
                else none
        else none
    else none

/-- Embeds `parse_cursor_bcw2` applied to already-decoded bytes: the size and
magic checks, the fixed-offset header reads, then the lane loop.  `present`
is set on success. -/
def parse_cursor_bytes (b : List Nat) : Option WindowCursor :=
  if b.length < 4 + 1 + 3 + 4 + 8 + 4 + 2 + 2 + 2 then none
  else if ¬ (b.getD 0 0 = 66 ∧ b.getD 1 0 = 67 ∧ b.getD 2 0 = 87 ∧ b.getD 3 0 = 50) then none
  else
    match read_u32_le b 8, read_u64_le b 12, read_u32_le b 20,
        read_u16_le b 24, read_u16_le b 26, read_u16_le b 28 with
    | some ns, some sd, some npp, some win, some bur, some lc =>
      match parse_lanes b 30 lc with
      | some (ls, _) =>
        some { present := true, flags := b.getD 4 0, k0 := b.getD 5 0,
               kout := b.getD 6 0, d := b.getD 7 0, numShards := ns, seed := sd,
               next_perm_pos := npp, window := win, burst := bur, lanes := ls }
      | none => none
    | _, _, _, _, _, _ => none

/-- Embeds `parse_cursor_bcw2`: base64url-decode then parse the bytes. -/
def parse_cursor_bcw2 (token : List Char) : Option WindowCursor :=
  match b64url_decode token with
  | none => none
  | some b => parse_cursor_bytes b

/-! ## base64url roundtrip -/

theorem and63_eq (x : Nat) : x &&& 63 = x % 64 := Nat.and_pow_two_sub_one_eq_mod x 6

theorem and255_eq (x : Nat) : x &&& 255 = x % 256 := Nat.and_pow_two_sub_one_eq_mod x 8

theorem shl8_or_eq (b c : Nat) (h : c < 256) : (b <<< 8) ||| c = b * 256 + c := by
  have := shl_or_eq 8 b c (by norm_num [h] )
  simpa using this

theorem shl6_or_eq (b c : Nat) (h : c < 64) : (b <<< 6) ||| c = b * 64 + c := by
  have := shl_or_eq 6 b c (by norm_num [h] )
  simpa using this

theorem b64_chr_index (i : Nat) (h : i < 64) :
    b64_char_index (B64URL.getD i 'A') = some i := by
  interval_cases i <;> rfl

theorem sext_emit_lt (buf bits : Nat) : ∀ x ∈ sext_emit buf bits, x < 64 := by
  intro x hx
  induction bits using Nat.strong_induction_on with
  | _ bits ih =>
    rw [sext_emit] at hx
    by_cases h : 6 ≤ bits
    · rw [if_pos h] at hx
      rcases List.mem_cons.mp hx with h1 | h1
      · subst h1; rw [and63_eq]; omega
      · exact ih (bits - 6) (by omega) h1
    · rw [if_neg h] at hx
      simp at hx

theorem sext_emit_8 (buf : Nat) : sext_emit buf 8 = [(buf >>> 2) &&& 63] := by
  rw [sext_emit]; norm_num
  rw [sext_emit]; norm_num

theorem sext_emit_10 (buf : Nat) : sext_emit buf 10 = [(buf >>> 4) &&& 63] := by
  rw [sext_emit]; norm_num
  rw [sext_emit]; norm_num

theorem sext_emit_12 (buf : Nat) : sext_emit buf 12 = [(buf >>> 6) &&& 63, buf &&& 63] := by
  rw [sext_emit]; norm_num
  rw [sext_emit]; norm_num
  rw [sext_emit]; norm_num

theorem encode_go_nil_0 (buf : Nat) : b64_encode_go [] buf 0 = [] := by
  simp [b64_encode_go]

theorem encode_go_nil_2 (buf : Nat) : b64_encode_go [] buf 2 = [(buf <<< 4) &&& 63] := by
  simp [b64_encode_go]

theorem encode_go_nil_4 (buf : Nat) : b64_encode_go [] buf 4 = [(buf <<< 2) &&& 63] := by
  simp [b64_encode_go]

theorem encode_go_cons_0 (c : Nat) (rest : List Nat) (buf : Nat) :
    b64_encode_go (c :: rest) buf 0 =
      (((((buf <<< 8) ||| c) % 2 ^ 32) >>> 2) &&& 63)
        :: b64_encode_go rest (((buf <<< 8) ||| c) % 2 ^ 32) 2 := by
  show sext_emit (((buf <<< 8) ||| c) % 2 ^ 32) 8 ++ _ = _
  rw [sext_emit_8]
  simp only [List.singleton_append]

theorem encode_go_cons_2 (c : Nat) (rest : List Nat) (buf : Nat) :
    b64_encode_go (c :: rest) buf 2 =
      (((((buf <<< 8) ||| c) % 2 ^ 32) >>> 4) &&& 63)
        :: b64_encode_go rest (((buf <<< 8) ||| c) % 2 ^ 32) 4 := by
  show sext_emit (((buf <<< 8) ||| c) % 2 ^ 32) 10 ++ _ = _
  rw [sext_emit_10]
  simp only [List.singleton_append]

theorem encode_go_cons_4 (c : Nat) (rest : List Nat) (buf : Nat) :
    b64_encode_go (c :: rest) buf 4 =
      (((((buf <<< 8) ||| c) % 2 ^ 32) >>> 6) &&& 63)
        :: ((((buf <<< 8) ||| c) % 2 ^ 32) &&& 63)
        :: b64_encode_go rest (((buf <<< 8) ||| c) % 2 ^ 32) 0 := by
  show sext_emit (((buf <<< 8) ||| c) % 2 ^ 32) 12 ++ _ = _
  rw [sext_emit_12]
  simp only [List.cons_append, List.singleton_append, List.nil_append]

theorem and63_lt (x : Nat) : x &&& 63 < 64 := by rw [and63_eq]; omega

theorem b64_go_roundtrip (bs : List Nat) (hb : ∀ x ∈ bs, x < 256) :
    (∀ bufE bufD : Nat,
        b64_decode_go ((b64_encode_go bs bufE 0).map (fun i => B64URL.getD i 'A')) bufD 0
          = some bs) ∧
    (∀ bufE bufD : Nat,
        b64_decode_go ((b64_encode_go bs bufE 2).map (fun i => B64URL.getD i 'A')) bufD 6
          = some ((bufD % 64 * 4 + bufE % 4) :: bs)) ∧
    (∀ bufE bufD : Nat,
        b64_decode_go ((b64_encode_go bs bufE 4).map (fun i => B64URL.getD i 'A')) bufD 4
          = some ((bufD % 16 * 16 + bufE % 16) :: bs)) := by
  induction bs with
  | nil =>
    refine ⟨?_, ?_, ?_⟩
    · intro bufE bufD
      rw [encode_go_nil_0]
      rfl
    · intro bufE bufD
      rw [encode_go_nil_2]
      have hs := and63_lt (bufE <<< 4)
      simp only [List.map_cons, List.map_nil, b64_decode_go, b64_chr_index _ hs]
      norm_num
      rw [shl6_or_eq _ _ hs]
      simp only [and63_eq, and255_eq, Nat.shiftLeft_eq, Nat.shiftRight_eq_div_pow]
      norm_num
      omega
    · intro bufE bufD
      rw [encode_go_nil_4]
      have hs := and63_lt (bufE <<< 2)
      simp only [List.map_cons, List.map_nil, b64_decode_go, b64_chr_index _ hs]
      norm_num
      rw [shl6_or_eq _ _ hs]
      simp only [and63_eq, and255_eq, Nat.shiftLeft_eq, Nat.shiftRight_eq_div_pow]
      norm_num
      omega
  | cons c rest ih =>
    have hc : c < 256 := hb c (List.mem_cons_self c rest)
    have hrest : ∀ x ∈ rest, x < 256 := fun x hx => hb x (List.mem_cons_of_mem c hx)
    obtain ⟨ih0, ih2, ih4⟩ := ih hrest
    refine ⟨?_, ?_, ?_⟩
    · intro bufE bufD
      rw [encode_go_cons_0, List.map_cons]
      have hs := and63_lt ((((bufE <<< 8) ||| c) % 2 ^ 32) >>> 2)
      simp only [b64_decode_go, b64_chr_index _ hs]
      rw [if_neg (by norm_num)]
      simp only [Nat.zero_add]
      rw [ih2]
      simp only [Option.some.injEq, List.cons.injEq, and_true]
      rw [shl6_or_eq _ _ hs, shl8_or_eq _ _ hc]
      simp only [and63_eq, Nat.shiftRight_eq_div_pow]
      norm_num
      omega
    · intro bufE bufD
      rw [encode_go_cons_2, List.map_cons]
      have hs := and63_lt ((((bufE <<< 8) ||| c) % 2 ^ 32) >>> 4)
      simp only [b64_decode_go, b64_chr_index _ hs]
      simp only [Nat.reduceAdd, Nat.reduceSub]
      rw [if_pos (by norm_num)]
      rw [ih4]
      simp only [Option.some.injEq, List.cons.injEq, and_true]
      constructor
      · rw [shl6_or_eq _ _ hs, shl8_or_eq _ _ hc]
        simp only [and63_eq, and255_eq, Nat.shiftLeft_eq, Nat.shiftRight_eq_div_pow]
        norm_num
        omega
      · rw [shl6_or_eq _ _ hs, shl8_or_eq _ _ hc]
        simp only [and63_eq, and255_eq, Nat.shiftLeft_eq, Nat.shiftRight_eq_div_pow]
        norm_num
        omega
    · intro bufE bufD
      rw [encode_go_cons_4, List.map_cons, List.map_cons]
      have hs1 := and63_lt ((((bufE <<< 8) ||| c) % 2 ^ 32) >>> 6)
      have hs2 := and63_lt (((bufE <<< 8) ||| c) % 2 ^ 32)
      simp only [b64_decode_go, b64_chr_index _ hs1, b64_chr_index _ hs2]
      simp only [Nat.reduceAdd, Nat.reduceSub]
      rw [if_pos (by norm_num), if_pos (by norm_num)]
      rw [ih0]
      simp only [Option.some.injEq, List.cons.injEq, and_true]
      constructor
      · rw [shl6_or_eq _ _ hs1, shl8_or_eq _ _ hc]
        simp only [and63_eq, and255_eq, Nat.shiftLeft_eq, Nat.shiftRight_eq_div_pow]
        norm_num
        omega
      · rw [shl6_or_eq _ _ hs2, shl6_or_eq _ _ hs1, shl8_or_eq _ _ hc]
        simp only [and63_eq, and255_eq, Nat.shiftLeft_eq, Nat.shiftRight_eq_div_pow]
        norm_num
        omega

/-! ## Serialized-byte reads over concatenations -/

theorem push_le_length (x : Nat) : ∀ n, (push_le x n).length = n := by
  intro n
  induction n with
  | zero => rfl
  | succ n ih => simp [push_le, ih]

theorem push_le_lt (x : Nat) : ∀ n, ∀ y ∈ push_le x n, y < 256 := by
  intro n
  induction n with
  | zero => intro y hy; simp [push_le] at hy
  | succ n ih =>
    intro y hy
    rw [push_le] at hy
    rcases List.mem_append.mp hy with h | h
    · exact ih y h
    · simp at h
      subst h
      rw [and255_eq]
      omega

theorem getD_concat {l1 l2 : List Nat} {k : Nat} :
    (l1 ++ l2).getD (l1.length + k) 0 = l2.getD k 0 := by
  rw [List.getD_append_right _ _ _ _ (by omega)]
  congr 1
  omega

theorem le_val_push (n : Nat) :
    ∀ pre suf : List Nat, ∀ x : Nat,
      le_val (pre ++ (push_le x n ++ suf)) pre.length n = x % 2 ^ (8 * n) := by
  induction n with
  | zero => intro pre suf x; simp [le_val, Nat.mod_one]
  | succ n ih =>
    intro pre suf x
    rw [le_val]
    have hassoc : push_le x (n + 1) ++ suf
        = push_le x n ++ (((x >>> (8 * n)) &&& 255) :: suf) := by
      rw [push_le]
      simp
    rw [hassoc, ih]
    have hget : (pre ++ (push_le x n ++ (((x >>> (8 * n)) &&& 255) :: suf))).getD
        (pre.length + n) 0 = (x >>> (8 * n)) &&& 255 := by
      rw [← List.append_assoc]
      have hlen : (pre ++ push_le x n).length = pre.length + n := by
        simp [push_le_length]
      calc (pre ++ push_le x n ++ (((x >>> (8 * n)) &&& 255) :: suf)).getD
            (pre.length + n) 0
          = (pre ++ push_le x n ++ (((x >>> (8 * n)) &&& 255) :: suf)).getD
            ((pre ++ push_le x n).length + 0) 0 := by rw [hlen, Nat.add_zero]
        _ = (((x >>> (8 * n)) &&& 255) :: suf).getD 0 0 := getD_concat
        _ = (x >>> (8 * n)) &&& 255 := rfl
    rw [hget]
    rw [Nat.lor_comm, shl_or_eq _ _ _ (by
      have : x % 2 ^ (8 * n) < 2 ^ (8 * n) := Nat.mod_lt _ (Nat.pos_pow_of_pos _ (by omega))
      omega)]
    rw [and255_eq, Nat.shiftRight_eq_div_pow]
    have hsplit : (2 : Nat) ^ (8 * (n + 1)) = 2 ^ (8 * n) * 256 := by
      rw [Nat.mul_succ, pow_add]
      norm_num
    rw [hsplit, Nat.mod_mul]
    ring

theorem read_u16_push (pre suf : List Nat) (x : Nat) :
    read_u16_le (pre ++ (push_le x 2 ++ suf)) pre.length = some (x % 2 ^ 16) := by
  unfold read_u16_le
  rw [if_pos (by simp [push_le_length])]
  rw [le_val_push]

theorem read_u32_push (pre suf : List Nat) (x : Nat) :
    read_u32_le (pre ++ (push_le x 4 ++ suf)) pre.length = some (x % 2 ^ 32) := by
  unfold read_u32_le
  rw [if_pos (by simp [push_le_length])]
  rw [le_val_push]

theorem read_u64_push (pre suf : List Nat) (x : Nat) :
    read_u64_le (pre ++ (push_le x 8 ++ suf)) pre.length = some (x % 2 ^ 64) := by
  unfold read_u64_le
  rw [if_pos (by simp [push_le_length])]
  rw [le_val_push]

/-! ## Structural validity of window cursors -/

/-- Lane fields consistent with the `active` / `mode` / `child_present` flags
and the serialized field widths: exactly the states `parse_cursor_bcw2` can
produce for a lane. -/
def lane_valid (ln : LaneState) : Prop :=
  if ln.active then
    ln.perm_pos < 2 ^ 32 ∧ ln.mode < 256 ∧
      (if ln.mode = 0 then
        ln.after < 2 ^ 64 ∧ ln.parent_anchor = U64MAX ∧ ln.child_present = false ∧
          ln.L = 0 ∧ ln.left_idx = 0 ∧ ln.right_idx = 0
       else
        ln.after = U64MAX ∧ ln.parent_anchor < 2 ^ 64 ∧
          (if ln.child_present then
            ln.L < 256 ∧ ln.left_idx < 2 ^ 64 ∧ ln.right_idx < 2 ^ 64
           else ln.L = 0 ∧ ln.left_idx = 0 ∧ ln.right_idx = 0))
  else ln = {}

/-- A structurally valid `WindowCursor`: field values inside their serialized
widths, `present` set, and every lane consistent with its flags. -/
def cursor_valid (c : WindowCursor) : Prop :=
  c.present = true ∧ c.flags < 256 ∧ c.k0 < 256 ∧ c.kout < 256 ∧ c.d < 256 ∧
    c.numShards < 2 ^ 32 ∧ c.seed < 2 ^ 64 ∧ c.next_perm_pos < 2 ^ 32 ∧
    c.window < 2 ^ 16 ∧ c.burst < 2 ^ 16 ∧ c.lanes.length < 2 ^ 16 ∧
    ∀ ln ∈ c.lanes, lane_valid ln

theorem getD_at (pre : List Nat) (y : Nat) (suf : List Nat) :
    (pre ++ (y :: suf)).getD pre.length 0 = y := by
  have h := @getD_concat pre (y :: suf) 0
  simpa using h

theorem parse_lanes_ser (ls : List LaneState) (hv : ∀ ln ∈ ls, lane_valid ln) :
    ∀ pre : List Nat,
      parse_lanes (pre ++ ls.flatMap serialize_lane) pre.length ls.length
        = some (ls, pre.length + (ls.flatMap serialize_lane).length) := by
  induction ls with
  | nil => intro pre; simp [parse_lanes]
  | cons l ls ih =>
    intro pre
    have hvl : lane_valid l := hv l (List.mem_cons_self l ls)
    have hvr : ∀ ln ∈ ls, lane_valid ln := fun ln hln => hv ln (List.mem_cons_of_mem l hln)
    simp only [List.flatMap_cons, List.length_cons]
    by_cases ha : l.active
    · unfold lane_valid at hvl
      rw [if_pos ha] at hvl
      obtain ⟨hpp, hmode, hvm⟩ := hvl
      by_cases hm : l.mode = 0
      · rw [if_pos hm] at hvm
        obtain ⟨haf, hpa, hcp, hLz, hliz, hriz⟩ := hvm
        have hser : serialize_lane l
            = 1 :: (push_le l.perm_pos 4 ++ (l.mode :: push_le l.after 8)) := by
          simp [serialize_lane, ha, hm]
        rw [hser]
        simp only [List.cons_append, List.append_assoc]
        have hlen : (pre ++ 1 :: (push_le l.perm_pos 4
            ++ (l.mode :: (push_le l.after 8 ++ ls.flatMap serialize_lane)))).length
            = pre.length + 14 + (ls.flatMap serialize_lane).length := by
          simp [push_le_length]
          omega
        rw [parse_lanes]
        rw [if_pos (by rw [hlen]; omega)]
        rw [getD_at pre 1 _]
        rw [if_neg (by norm_num)]
        rw [if_pos (by rw [hlen]; omega)]
        have r32 : read_u32_le (pre ++ 1 :: (push_le l.perm_pos 4
            ++ (l.mode :: (push_le l.after 8 ++ ls.flatMap serialize_lane))))
            (pre.length + 1) = some l.perm_pos := by
          rw [show pre ++ 1 :: (push_le l.perm_pos 4
              ++ (l.mode :: (push_le l.after 8 ++ ls.flatMap serialize_lane)))
              = (pre ++ [1]) ++ (push_le l.perm_pos 4
                ++ (l.mode :: (push_le l.after 8 ++ ls.flatMap serialize_lane))) from by simp]
          rw [show pre.length + 1 = (pre ++ [1]).length from by simp]
          rw [read_u32_push, Nat.mod_eq_of_lt hpp]
        rw [r32]
        dsimp only
        have gmode : (pre ++ 1 :: (push_le l.perm_pos 4
            ++ (l.mode :: (push_le l.after 8 ++ ls.flatMap serialize_lane)))).getD
            (pre.length + 5) 0 = l.mode := by
          rw [show pre ++ 1 :: (push_le l.perm_pos 4
              ++ (l.mode :: (push_le l.after 8 ++ ls.flatMap serialize_lane)))
              = (pre ++ 1 :: push_le l.perm_pos 4)
                ++ (l.mode :: (push_le l.after 8 ++ ls.flatMap serialize_lane)) from by simp]
          rw [show pre.length + 5 = (pre ++ 1 :: push_le l.perm_pos 4).length from by
            simp [push_le_length]]
          exact getD_at _ _ _
        rw [gmode, if_pos hm]
        have r64 : read_u64_le (pre ++ 1 :: (push_le l.perm_pos 4
            ++ (l.mode :: (push_le l.after 8 ++ ls.flatMap serialize_lane))))
            (pre.length + 6) = some l.after := by
          rw [show pre ++ 1 :: (push_le l.perm_pos 4
              ++ (l.mode :: (push_le l.after 8 ++ ls.flatMap serialize_lane)))
              = (pre ++ 1 :: (push_le l.perm_pos 4 ++ [l.mode]))
                ++ (push_le l.after 8 ++ ls.flatMap serialize_lane) from by simp]
          rw [show pre.length + 6 = (pre ++ 1 :: (push_le l.perm_pos 4 ++ [l.mode])).length
            from by simp [push_le_length]]
          rw [read_u64_push, Nat.mod_eq_of_lt haf]
        rw [r64]
        dsimp only
        have hrec : parse_lanes (pre ++ 1 :: (push_le l.perm_pos 4
            ++ (l.mode :: (push_le l.after 8 ++ ls.flatMap serialize_lane))))
            (pre.length + 14) ls.length
            = some (ls, pre.length + 14 + (ls.flatMap serialize_lane).length) := by
          rw [show pre ++ 1 :: (push_le l.perm_pos 4
              ++ (l.mode :: (push_le l.after 8 ++ ls.flatMap serialize_lane)))
              = (pre ++ 1 :: (push_le l.perm_pos 4 ++ (l.mode :: push_le l.after 8)))
                ++ ls.flatMap serialize_lane from by simp]
          rw [show pre.length + 14
              = (pre ++ 1 :: (push_le l.perm_pos 4 ++ (l.mode :: push_le l.after 8))).length
            from by simp [push_le_length]]
          rw [ih hvr]
          try simp [push_le_length]
          try omega
        rw [hrec]
        dsimp only
        have hl : ({ active := true, perm_pos := l.perm_pos, mode := 0,
                     after := l.after } : LaneState) = l := by
          obtain ⟨a, pp, m, af, pa, cp, LL, li, ri⟩ := l
          dsimp only at ha hm hpa hcp hLz hliz hriz
          simp [LaneState.mk.injEq, ha, hm, hpa, hcp, hLz, hliz, hriz]
        rw [hl]
        simp [push_le_length]
        omega
      · rw [if_neg hm] at hvm
        obtain ⟨haf, hpa, hvc⟩ := hvm
        by_cases hcp : l.child_present
        · rw [if_pos hcp] at hvc
          obtain ⟨hLb, hlib, hrib⟩ := hvc
          have hser : serialize_lane l
              = 1 :: (push_le l.perm_pos 4 ++ (l.mode :: (push_le l.parent_anchor 8
                ++ (1 :: (l.L :: (push_le l.left_idx 8 ++ push_le l.right_idx 8)))))) := by
            simp [serialize_lane, ha, hm, hcp]
          rw [hser]
          simp only [List.cons_append, List.append_assoc, List.nil_append]
          have hlen : (pre ++ 1 :: (push_le l.perm_pos 4 ++ (l.mode ::
              (push_le l.parent_anchor 8 ++ (1 :: (l.L :: (push_le l.left_idx 8
              ++ (push_le l.right_idx 8 ++ ls.flatMap serialize_lane)))))))).length
              = pre.length + 32 + (ls.flatMap serialize_lane).length := by
            simp [push_le_length]
            omega
          rw [parse_lanes]
          rw [if_pos (by rw [hlen]; omega)]
          rw [getD_at pre 1 _]
          rw [if_neg (by norm_num)]
          rw [if_pos (by rw [hlen]; omega)]
          have r32 : read_u32_le (pre ++ 1 :: (push_le l.perm_pos 4 ++ (l.mode ::
              (push_le l.parent_anchor 8 ++ (1 :: (l.L :: (push_le l.left_idx 8
              ++ (push_le l.right_idx 8 ++ ls.flatMap serialize_lane))))))))
              (pre.length + 1) = some l.perm_pos := by
            rw [show pre ++ 1 :: (push_le l.perm_pos 4 ++ (l.mode ::
                (push_le l.parent_anchor 8 ++ (1 :: (l.L :: (push_le l.left_idx 8
                ++ (push_le l.right_idx 8 ++ ls.flatMap serialize_lane)))))))
                = (pre ++ [1]) ++ (push_le l.perm_pos 4 ++ (l.mode ::
                (push_le l.parent_anchor 8 ++ (1 :: (l.L :: (push_le l.left_idx 8
                ++ (push_le l.right_idx 8 ++ ls.flatMap serialize_lane)))))))
              from by simp]
            rw [show pre.length + 1 = (pre ++ [1]).length from by simp]
            rw [read_u32_push, Nat.mod_eq_of_lt hpp]
          rw [r32]
          dsimp only
          have gmode : (pre ++ 1 :: (push_le l.perm_pos 4 ++ (l.mode ::
              (push_le l.parent_anchor 8 ++ (1 :: (l.L :: (push_le l.left_idx 8
              ++ (push_le l.right_idx 8 ++ ls.flatMap serialize_lane)))))))).getD
              (pre.length + 5) 0 = l.mode := by
            rw [show pre ++ 1 :: (push_le l.perm_pos 4 ++ (l.mode ::
                (push_le l.parent_anchor 8 ++ (1 :: (l.L :: (push_le l.left_idx 8
                ++ (push_le l.right_idx 8 ++ ls.flatMap serialize_lane)))))))
                = (pre ++ 1 :: push_le l.perm_pos 4) ++ (l.mode ::
                (push_le l.parent_anchor 8 ++ (1 :: (l.L :: (push_le l.left_idx 8
                ++ (push_le l.right_idx 8 ++ ls.flatMap serialize_lane))))))
              from by simp]
            rw [show pre.length + 5 = (pre ++ 1 :: push_le l.perm_pos 4).length from by
              simp [push_le_length]]
            exact getD_at _ _ _
          rw [gmode, if_neg hm]
          have r64 : read_u64_le (pre ++ 1 :: (push_le l.perm_pos 4 ++ (l.mode ::
              (push_le l.parent_anchor 8 ++ (1 :: (l.L :: (push_le l.left_idx 8
              ++ (push_le l.right_idx 8 ++ ls.flatMap serialize_lane))))))))
              (pre.length + 6) = some l.parent_anchor := by
            rw [show pre ++ 1 :: (push_le l.perm_pos 4 ++ (l.mode ::
                (push_le l.parent_anchor 8 ++ (1 :: (l.L :: (push_le l.left_idx 8
                ++ (push_le l.right_idx 8 ++ ls.flatMap serialize_lane)))))))
                = (pre ++ 1 :: (push_le l.perm_pos 4 ++ [l.mode]))
                  ++ (push_le l.parent_anchor 8 ++ (1 :: (l.L :: (push_le l.left_idx 8
                  ++ (push_le l.right_idx 8 ++ ls.flatMap serialize_lane)))))
              from by simp]
            rw [show pre.length + 6
                = (pre ++ 1 :: (push_le l.perm_pos 4 ++ [l.mode])).length from by
              simp [push_le_length]]
            rw [read_u64_push, Nat.mod_eq_of_lt hpa]
          rw [r64]
          dsimp only
          rw [if_pos (by rw [hlen]; omega)]
          have gcp : (pre ++ 1 :: (push_le l.perm_pos 4 ++ (l.mode ::
              (push_le l.parent_anchor 8 ++ (1 :: (l.L :: (push_le l.left_idx 8
              ++ (push_le l.right_idx 8 ++ ls.flatMap serialize_lane)))))))).getD
              (pre.length + 14) 0 = 1 := by
            rw [show pre ++ 1 :: (push_le l.perm_pos 4 ++ (l.mode ::
                (push_le l.parent_anchor 8 ++ (1 :: (l.L :: (push_le l.left_idx 8
                ++ (push_le l.right_idx 8 ++ ls.flatMap serialize_lane)))))))
                = (pre ++ 1 :: (push_le l.perm_pos 4 ++ (l.mode ::
                  push_le l.parent_anchor 8)))
                  ++ (1 :: (l.L :: (push_le l.left_idx 8
                  ++ (push_le l.right_idx 8 ++ ls.flatMap serialize_lane))))
              from by simp]
            rw [show pre.length + 14
                = (pre ++ 1 :: (push_le l.perm_pos 4 ++ (l.mode ::
                  push_le l.parent_anchor 8))).length from by simp [push_le_length]]
            exact getD_at _ _ _
          rw [gcp]
          rw [if_neg (by norm_num)]
          rw [if_pos (by rw [hlen]; omega)]
          have r64li : read_u64_le (pre ++ 1 :: (push_le l.perm_pos 4 ++ (l.mode ::
              (push_le l.parent_anchor 8 ++ (1 :: (l.L :: (push_le l.left_idx 8
              ++ (push_le l.right_idx 8 ++ ls.flatMap serialize_lane))))))))
              (pre.length + 16) = some l.left_idx := by
            rw [show pre ++ 1 :: (push_le l.perm_pos 4 ++ (l.mode ::
                (push_le l.parent_anchor 8 ++ (1 :: (l.L :: (push_le l.left_idx 8
                ++ (push_le l.right_idx 8 ++ ls.flatMap serialize_lane)))))))
                = (pre ++ 1 :: (push_le l.perm_pos 4 ++ (l.mode ::
                  (push_le l.parent_anchor 8 ++ [1, l.L]))))
                  ++ (push_le l.left_idx 8
                  ++ (push_le l.right_idx 8 ++ ls.flatMap serialize_lane))
              from by simp]
            rw [show pre.length + 16
                = (pre ++ 1 :: (push_le l.perm_pos 4 ++ (l.mode ::
                  (push_le l.parent_anchor 8 ++ [1, l.L])))).length from by
              simp [push_le_length]]
            rw [read_u64_push, Nat.mod_eq_of_lt hlib]
          have r64ri : read_u64_le (pre ++ 1 :: (push_le l.perm_pos 4 ++ (l.mode ::
              (push_le l.parent_anchor 8 ++ (1 :: (l.L :: (push_le l.left_idx 8
              ++ (push_le l.right_idx 8 ++ ls.flatMap serialize_lane))))))))
              (pre.length + 24) = some l.right_idx := by
            rw [show pre ++ 1 :: (push_le l.perm_pos 4 ++ (l.mode ::
                (push_le l.parent_anchor 8 ++ (1 :: (l.L :: (push_le l.left_idx 8
                ++ (push_le l.right_idx 8 ++ ls.flatMap serialize_lane)))))))
                = (pre ++ 1 :: (push_le l.perm_pos 4 ++ (l.mode ::
                  (push_le l.parent_anchor 8 ++ (1 :: (l.L :: push_le l.left_idx 8))))))
                  ++ (push_le l.right_idx 8 ++ ls.flatMap serialize_lane)
              from by simp]
            rw [show pre.length + 24
                = (pre ++ 1 :: (push_le l.perm_pos 4 ++ (l.mode ::
                  (push_le l.parent_anchor 8
                    ++ (1 :: (l.L :: push_le l.left_idx 8)))))).length from by
              simp [push_le_length]]
            rw [read_u64_push, Nat.mod_eq_of_lt hrib]
          rw [r64li, r64ri]
          dsimp only
          have gL : (pre ++ 1 :: (push_le l.perm_pos 4 ++ (l.mode ::
              (push_le l.parent_anchor 8 ++ (1 :: (l.L :: (push_le l.left_idx 8
              ++ (push_le l.right_idx 8 ++ ls.flatMap serialize_lane)))))))).getD
              (pre.length + 15) 0 = l.L := by
            rw [show pre ++ 1 :: (push_le l.perm_pos 4 ++ (l.mode ::
                (push_le l.parent_anchor 8 ++ (1 :: (l.L :: (push_le l.left_idx 8
                ++ (push_le l.right_idx 8 ++ ls.flatMap serialize_lane)))))))
                = (pre ++ 1 :: (push_le l.perm_pos 4 ++ (l.mode ::
                  (push_le l.parent_anchor 8 ++ [1]))))
                  ++ (l.L :: (push_le l.left_idx 8
                  ++ (push_le l.right_idx 8 ++ ls.flatMap serialize_lane)))
              from by simp]
            rw [show pre.length + 15
                = (pre ++ 1 :: (push_le l.perm_pos 4 ++ (l.mode ::
                  (push_le l.parent_anchor 8 ++ [1])))).length from by
              simp [push_le_length]]
            exact getD_at _ _ _
          rw [gL]
          have hrec : parse_lanes (pre ++ 1 :: (push_le l.perm_pos 4 ++ (l.mode ::
              (push_le l.parent_anchor 8 ++ (1 :: (l.L :: (push_le l.left_idx 8
              ++ (push_le l.right_idx 8 ++ ls.flatMap serialize_lane))))))))
              (pre.length + 32) ls.length
              = some (ls, pre.length + 32 + (ls.flatMap serialize_lane).length) := by
            rw [show pre ++ 1 :: (push_le l.perm_pos 4 ++ (l.mode ::
                (push_le l.parent_anchor 8 ++ (1 :: (l.L :: (push_le l.left_idx 8
                ++ (push_le l.right_idx 8 ++ ls.flatMap serialize_lane)))))))
                = (pre ++ 1 :: (push_le l.perm_pos 4 ++ (l.mode ::
                  (push_le l.parent_anchor 8 ++ (1 :: (l.L :: (push_le l.left_idx 8
                  ++ push_le l.right_idx 8))))))) ++ ls.flatMap serialize_lane
              from by simp]
            rw [show pre.length + 32
                = (pre ++ 1 :: (push_le l.perm_pos 4 ++ (l.mode ::
                  (push_le l.parent_anchor 8 ++ (1 :: (l.L :: (push_le l.left_idx 8
                  ++ push_le l.right_idx 8))))))).length from by simp [push_le_length]]
            rw [ih hvr]
            try simp [push_le_length]
            try omega
          rw [hrec]
          dsimp only
          have hl : ({ active := true, perm_pos := l.perm_pos, mode := l.mode,
                       parent_anchor := l.parent_anchor, child_present := true,
                       L := l.L, left_idx := l.left_idx,
                       right_idx := l.right_idx } : LaneState) = l := by
            obtain ⟨a, pp, m, af, pa, cp, LL, li, ri⟩ := l
            dsimp only at ha haf hcp
            simp [LaneState.mk.injEq, ha, haf, hcp]
          rw [hl]
          try simp [push_le_length]
          try omega
        · rw [if_neg hcp] at hvc
          obtain ⟨hLz, hliz, hriz⟩ := hvc
          have hser : serialize_lane l
              = 1 :: (push_le l.perm_pos 4 ++ (l.mode ::
                (push_le l.parent_anchor 8 ++ [0]))) := by
            simp [serialize_lane, ha, hm, hcp]
          rw [hser]
          simp only [List.cons_append, List.append_assoc, List.nil_append]
          have hlen : (pre ++ 1 :: (push_le l.perm_pos 4 ++ (l.mode ::
              (push_le l.parent_anchor 8
                ++ (0 :: ls.flatMap serialize_lane))))).length
              = pre.length + 15 + (ls.flatMap serialize_lane).length := by
            simp [push_le_length]
            omega
          rw [parse_lanes]
          rw [if_pos (by rw [hlen]; omega)]
          rw [getD_at pre 1 _]
          rw [if_neg (by norm_num)]
          rw [if_pos (by rw [hlen]; omega)]
          have r32 : read_u32_le (pre ++ 1 :: (push_le l.perm_pos 4 ++ (l.mode ::
              (push_le l.parent_anchor 8 ++ (0 :: ls.flatMap serialize_lane)))))
              (pre.length + 1) = some l.perm_pos := by
            rw [show pre ++ 1 :: (push_le l.perm_pos 4 ++ (l.mode ::
                (push_le l.parent_anchor 8 ++ (0 :: ls.flatMap serialize_lane))))
                = (pre ++ [1]) ++ (push_le l.perm_pos 4 ++ (l.mode ::
                (push_le l.parent_anchor 8 ++ (0 :: ls.flatMap serialize_lane))))
              from by simp]
            rw [show pre.length + 1 = (pre ++ [1]).length from by simp]
            rw [read_u32_push, Nat.mod_eq_of_lt hpp]
          rw [r32]
          dsimp only
          have gmode : (pre ++ 1 :: (push_le l.perm_pos 4 ++ (l.mode ::
              (push_le l.parent_anchor 8 ++ (0 :: ls.flatMap serialize_lane))))).getD
              (pre.length + 5) 0 = l.mode := by
            rw [show pre ++ 1 :: (push_le l.perm_pos 4 ++ (l.mode ::
                (push_le l.parent_anchor 8 ++ (0 :: ls.flatMap serialize_lane))))
                = (pre ++ 1 :: push_le l.perm_pos 4) ++ (l.mode ::
                (push_le l.parent_anchor 8 ++ (0 :: ls.flatMap serialize_lane)))
              from by simp]
            rw [show pre.length + 5 = (pre ++ 1 :: push_le l.perm_pos 4).length from by
              simp [push_le_length]]
            exact getD_at _ _ _
          rw [gmode, if_neg hm]
          have r64 : read_u64_le (pre ++ 1 :: (push_le l.perm_pos 4 ++ (l.mode ::
              (push_le l.parent_anchor 8 ++ (0 :: ls.flatMap serialize_lane)))))
              (pre.length + 6) = some l.parent_anchor := by
            rw [show pre ++ 1 :: (push_le l.perm_pos 4 ++ (l.mode ::
                (push_le l.parent_anchor 8 ++ (0 :: ls.flatMap serialize_lane))))
                = (pre ++ 1 :: (push_le l.perm_pos 4 ++ [l.mode]))
                  ++ (push_le l.parent_anchor 8 ++ (0 :: ls.flatMap serialize_lane))
              from by simp]
            rw [show pre.length + 6
                = (pre ++ 1 :: (push_le l.perm_pos 4 ++ [l.mode])).length from by
              simp [push_le_length]]
            rw [read_u64_push, Nat.mod_eq_of_lt hpa]
          rw [r64]
          dsimp only
          rw [if_pos (by rw [hlen]; omega)]
          have gcp : (pre ++ 1 :: (push_le l.perm_pos 4 ++ (l.mode ::
              (push_le l.parent_anchor 8 ++ (0 :: ls.flatMap serialize_lane))))).getD
              (pre.length + 14) 0 = 0 := by
            rw [show pre ++ 1 :: (push_le l.perm_pos 4 ++ (l.mode ::
                (push_le l.parent_anchor 8 ++ (0 :: ls.flatMap serialize_lane))))
                = (pre ++ 1 :: (push_le l.perm_pos 4 ++ (l.mode ::
                  push_le l.parent_anchor 8)))
                  ++ (0 :: ls.flatMap serialize_lane)
              from by simp]
            rw [show pre.length + 14
                = (pre ++ 1 :: (push_le l.perm_pos 4 ++ (l.mode ::
                  push_le l.parent_anchor 8))).length from by simp [push_le_length]]
            exact getD_at _ _ _
          rw [gcp]
          rw [if_pos rfl]
          have hrec : parse_lanes (pre ++ 1 :: (push_le l.perm_pos 4 ++ (l.mode ::
              (push_le l.parent_anchor 8 ++ (0 :: ls.flatMap serialize_lane)))))
              (pre.length + 15) ls.length
              = some (ls, pre.length + 15 + (ls.flatMap serialize_lane).length) := by
            rw [show pre ++ 1 :: (push_le l.perm_pos 4 ++ (l.mode ::
                (push_le l.parent_anchor 8 ++ (0 :: ls.flatMap serialize_lane))))
                = (pre ++ 1 :: (push_le l.perm_pos 4 ++ (l.mode ::
                  (push_le l.parent_anchor 8 ++ [0])))) ++ ls.flatMap serialize_lane
              from by simp]
            rw [show pre.length + 15
                = (pre ++ 1 :: (push_le l.perm_pos 4 ++ (l.mode ::
                  (push_le l.parent_anchor 8 ++ [0])))).length from by
              simp [push_le_length]]
            rw [ih hvr]
            try simp [push_le_length]
            try omega
          rw [hrec]
          dsimp only
          have hl : ({ active := true, perm_pos := l.perm_pos, mode := l.mode,
                       parent_anchor := l.parent_anchor, child_present := false,
                       L := 0, left_idx := 0, right_idx := 0 } : LaneState) = l := by
            obtain ⟨a, pp, m, af, pa, cp, LL, li, ri⟩ := l
            dsimp only at ha haf hcp hLz hliz hriz
            simp [LaneState.mk.injEq, ha, haf, hcp, hLz, hliz, hriz]
          rw [hl]
          try simp [push_le_length]
          try omega
    · unfold lane_valid at hvl
      rw [if_neg ha] at hvl
      have hser : serialize_lane l = [0] := by
        rw [hvl]; rfl
      rw [hser, hvl]
      rw [parse_lanes]
      rw [if_pos (by simp)]
      rw [List.singleton_append, getD_at pre 0 (ls.flatMap serialize_lane)]
      rw [if_pos rfl]
      rw [show pre ++ (0 :: ls.flatMap serialize_lane)
            = (pre ++ [0]) ++ ls.flatMap serialize_lane from by simp]
      rw [show pre.length + 1 = (pre ++ [0]).length from by simp]
      rw [ih hvr (pre ++ [0])]
      simp
      omega

theorem cursor_bytes_shape (c : WindowCursor) :
    cursor_bytes c
      = [66, 67, 87, 50, c.flags, c.k0, c.kout, c.d]
        ++ (push_le c.numShards 4 ++ (push_le c.seed 8 ++ (push_le c.next_perm_pos 4
          ++ (push_le c.window 2 ++ (push_le c.burst 2 ++ (push_le c.lanes.length 2
            ++ c.lanes.flatMap serialize_lane)))))) := by
  unfold cursor_bytes
  simp [List.append_assoc]

theorem parse_cursor_bytes_ser (c : WindowCursor) (hv : cursor_valid c) :
    parse_cursor_bytes (cursor_bytes c) = some c := by
  obtain ⟨hpres, hflags, hk0, hkout, hd, hns, hseed, hnpp, hwin, hburst, hlc, hlanes⟩ := hv
  rw [cursor_bytes_shape]
  have hlen : ([66, 67, 87, 50, c.flags, c.k0, c.kout, c.d]
      ++ (push_le c.numShards 4 ++ (push_le c.seed 8 ++ (push_le c.next_perm_pos 4
        ++ (push_le c.window 2 ++ (push_le c.burst 2 ++ (push_le c.lanes.length 2
          ++ c.lanes.flatMap serialize_lane))))))).length
      = 30 + (c.lanes.flatMap serialize_lane).length := by
    simp [push_le_length]
    omega
  unfold parse_cursor_bytes
  rw [if_neg (by rw [hlen]; omega)]
  rw [if_neg (by simp [List.getD])]
  have r8 : read_u32_le ([66, 67, 87, 50, c.flags, c.k0, c.kout, c.d]
      ++ (push_le c.numShards 4 ++ (push_le c.seed 8 ++ (push_le c.next_perm_pos 4
        ++ (push_le c.window 2 ++ (push_le c.burst 2 ++ (push_le c.lanes.length 2
          ++ c.lanes.flatMap serialize_lane))))))) 8 = some c.numShards := by
    rw [show (8 : Nat)
        = ([66, 67, 87, 50, c.flags, c.k0, c.kout, c.d] : List Nat).length from by simp]
    rw [read_u32_push, Nat.mod_eq_of_lt hns]
  have r12 : read_u64_le ([66, 67, 87, 50, c.flags, c.k0, c.kout, c.d]
      ++ (push_le c.numShards 4 ++ (push_le c.seed 8 ++ (push_le c.next_perm_pos 4
        ++ (push_le c.window 2 ++ (push_le c.burst 2 ++ (push_le c.lanes.length 2
          ++ c.lanes.flatMap serialize_lane))))))) 12 = some c.seed := by
    rw [show [66, 67, 87, 50, c.flags, c.k0, c.kout, c.d]
        ++ (push_le c.numShards 4 ++ (push_le c.seed 8 ++ (push_le c.next_perm_pos 4
          ++ (push_le c.window 2 ++ (push_le c.burst 2 ++ (push_le c.lanes.length 2
            ++ c.lanes.flatMap serialize_lane))))))
        = ([66, 67, 87, 50, c.flags, c.k0, c.kout, c.d] ++ push_le c.numShards 4)
          ++ (push_le c.seed 8 ++ (push_le c.next_perm_pos 4
            ++ (push_le c.window 2 ++ (push_le c.burst 2 ++ (push_le c.lanes.length 2
              ++ c.lanes.flatMap serialize_lane))))) from by simp]
    rw [show (12 : Nat)
        = ([66, 67, 87, 50, c.flags, c.k0, c.kout, c.d]
            ++ push_le c.numShards 4).length from by simp [push_le_length]]
    rw [read_u64_push, Nat.mod_eq_of_lt hseed]
  have r20 : read_u32_le ([66, 67, 87, 50, c.flags, c.k0, c.kout, c.d]
      ++ (push_le c.numShards 4 ++ (push_le c.seed 8 ++ (push_le c.next_perm_pos 4
        ++ (push_le c.window 2 ++ (push_le c.burst 2 ++ (push_le c.lanes.length 2
          ++ c.lanes.flatMap serialize_lane))))))) 20 = some c.next_perm_pos := by
    rw [show [66, 67, 87, 50, c.flags, c.k0, c.kout, c.d]
        ++ (push_le c.numShards 4 ++ (push_le c.seed 8 ++ (push_le c.next_perm_pos 4
          ++ (push_le c.window 2 ++ (push_le c.burst 2 ++ (push_le c.lanes.length 2
            ++ c.lanes.flatMap serialize_lane))))))
        = ([66, 67, 87, 50, c.flags, c.k0, c.kout, c.d] ++ push_le c.numShards 4
            ++ push_le c.seed 8)
          ++ (push_le c.next_perm_pos 4
            ++ (push_le c.window 2 ++ (push_le c.burst 2 ++ (push_le c.lanes.length 2
              ++ c.lanes.flatMap serialize_lane)))) from by simp]
    rw [show (20 : Nat)
        = ([66, 67, 87, 50, c.flags, c.k0, c.kout, c.d] ++ push_le c.numShards 4
            ++ push_le c.seed 8).length from by simp [push_le_length]]
    rw [read_u32_push, Nat.mod_eq_of_lt hnpp]
  have r24 : read_u16_le ([66, 67, 87, 50, c.flags, c.k0, c.kout, c.d]
      ++ (push_le c.numShards 4 ++ (push_le c.seed 8 ++ (push_le c.next_perm_pos 4
        ++ (push_le c.window 2 ++ (push_le c.burst 2 ++ (push_le c.lanes.length 2
          ++ c.lanes.flatMap serialize_lane))))))) 24 = some c.window := by
    rw [show [66, 67, 87, 50, c.flags, c.k0, c.kout, c.d]
        ++ (push_le c.numShards 4 ++ (push_le c.seed 8 ++ (push_le c.next_perm_pos 4
          ++ (push_le c.window 2 ++ (push_le c.burst 2 ++ (push_le c.lanes.length 2
            ++ c.lanes.flatMap serialize_lane))))))
        = ([66, 67, 87, 50, c.flags, c.k0, c.kout, c.d] ++ push_le c.numShards 4
            ++ push_le c.seed 8 ++ push_le c.next_perm_pos 4)
          ++ (push_le c.window 2 ++ (push_le c.burst 2 ++ (push_le c.lanes.length 2
            ++ c.lanes.flatMap serialize_lane))) from by simp]
    rw [show (24 : Nat)
        = ([66, 67, 87, 50, c.flags, c.k0, c.kout, c.d] ++ push_le c.numShards 4
            ++ push_le c.seed 8 ++ push_le c.next_perm_pos 4).length from by
      simp [push_le_length]]
    rw [read_u16_push, Nat.mod_eq_of_lt hwin]
  have r26 : read_u16_le ([66, 67, 87, 50, c.flags, c.k0, c.kout, c.d]
      ++ (push_le c.numShards 4 ++ (push_le c.seed 8 ++ (push_le c.next_perm_pos 4
        ++ (push_le c.window 2 ++ (push_le c.burst 2 ++ (push_le c.lanes.length 2
          ++ c.lanes.flatMap serialize_lane))))))) 26 = some c.burst := by
    rw [show [66, 67, 87, 50, c.flags, c.k0, c.kout, c.d]
        ++ (push_le c.numShards 4 ++ (push_le c.seed 8 ++ (push_le c.next_perm_pos 4
          ++ (push_le c.window 2 ++ (push_le c.burst 2 ++ (push_le c.lanes.length 2
            ++ c.lanes.flatMap serialize_lane))))))
        = ([66, 67, 87, 50, c.flags, c.k0, c.kout, c.d] ++ push_le c.numShards 4
            ++ push_le c.seed 8 ++ push_le c.next_perm_pos 4 ++ push_le c.window 2)
          ++ (push_le c.burst 2 ++ (push_le c.lanes.length 2
            ++ c.lanes.flatMap serialize_lane)) from by simp]
    rw [show (26 : Nat)
        = ([66, 67, 87, 50, c.flags, c.k0, c.kout, c.d] ++ push_le c.numShards 4
            ++ push_le c.seed 8 ++ push_le c.next_perm_pos 4
            ++ push_le c.window 2).length from by simp [push_le_length]]
    rw [read_u16_push, Nat.mod_eq_of_lt hburst]
  have r28 : read_u16_le ([66, 67, 87, 50, c.flags, c.k0, c.kout, c.d]
      ++ (push_le c.numShards 4 ++ (push_le c.seed 8 ++ (push_le c.next_perm_pos 4
        ++ (push_le c.window 2 ++ (push_le c.burst 2 ++ (push_le c.lanes.length 2
          ++ c.lanes.flatMap serialize_lane))))))) 28 = some c.lanes.length := by
    rw [show [66, 67, 87, 50, c.flags, c.k0, c.kout, c.d]
        ++ (push_le c.numShards 4 ++ (push_le c.seed 8 ++ (push_le c.next_perm_pos 4
          ++ (push_le c.window 2 ++ (push_le c.burst 2 ++ (push_le c.lanes.length 2
            ++ c.lanes.flatMap serialize_lane))))))
        = ([66, 67, 87, 50, c.flags, c.k0, c.kout, c.d] ++ push_le c.numShards 4
            ++ push_le c.seed 8 ++ push_le c.next_perm_pos 4 ++ push_le c.window 2
            ++ push_le c.burst 2)
          ++ (push_le c.lanes.length 2 ++ c.lanes.flatMap serialize_lane) from by simp]
    rw [show (28 : Nat)
        = ([66, 67, 87, 50, c.flags, c.k0, c.kout, c.d] ++ push_le c.numShards 4
            ++ push_le c.seed 8 ++ push_le c.next_perm_pos 4 ++ push_le c.window 2
            ++ push_le c.burst 2).length from by simp [push_le_length]]
    rw [read_u16_push, Nat.mod_eq_of_lt hlc]
  rw [r8, r12, r20, r24, r26, r28]
  dsimp only
  have rl : parse_lanes ([66, 67, 87, 50, c.flags, c.k0, c.kout, c.d]
      ++ (push_le c.numShards 4 ++ (push_le c.seed 8 ++ (push_le c.next_perm_pos 4
        ++ (push_le c.window 2 ++ (push_le c.burst 2 ++ (push_le c.lanes.length 2
          ++ c.lanes.flatMap serialize_lane))))))) 30 c.lanes.length
      = some (c.lanes, 30 + (c.lanes.flatMap serialize_lane).length) := by
    rw [show [66, 67, 87, 50, c.flags, c.k0, c.kout, c.d]
        ++ (push_le c.numShards 4 ++ (push_le c.seed 8 ++ (push_le c.next_perm_pos 4
          ++ (push_le c.window 2 ++ (push_le c.burst 2 ++ (push_le c.lanes.length 2
            ++ c.lanes.flatMap serialize_lane))))))
        = ([66, 67, 87, 50, c.flags, c.k0, c.kout, c.d] ++ push_le c.numShards 4
            ++ push_le c.seed 8 ++ push_le c.next_perm_pos 4 ++ push_le c.window 2
            ++ push_le c.burst 2 ++ push_le c.lanes.length 2)
          ++ c.lanes.flatMap serialize_lane from by simp]
    rw [show (30 : Nat)
        = ([66, 67, 87, 50, c.flags, c.k0, c.kout, c.d] ++ push_le c.numShards 4
            ++ push_le c.seed 8 ++ push_le c.next_perm_pos 4 ++ push_le c.window 2
            ++ push_le c.burst 2 ++ push_le c.lanes.length 2).length from by
      simp [push_le_length]]
    rw [parse_lanes_ser c.lanes hlanes]
    try simp [push_le_length]
    try omega
  rw [rl]
  dsimp only
  have hg4 : ([66, 67, 87, 50, c.flags, c.k0, c.kout, c.d]
      ++ (push_le c.numShards 4 ++ (push_le c.seed 8 ++ (push_le c.next_perm_pos 4
        ++ (push_le c.window 2 ++ (push_le c.burst 2 ++ (push_le c.lanes.length 2
          ++ c.lanes.flatMap serialize_lane))))))).getD 4 0 = c.flags := by
    simp [List.getD]
  have hg5 : ([66, 67, 87, 50, c.flags, c.k0, c.kout, c.d]
      ++ (push_le c.numShards 4 ++ (push_le c.seed 8 ++ (push_le c.next_perm_pos 4
        ++ (push_le c.window 2 ++ (push_le c.burst 2 ++ (push_le c.lanes.length 2
          ++ c.lanes.flatMap serialize_lane))))))).getD 5 0 = c.k0 := by
    simp [List.getD]
  have hg6 : ([66, 67, 87, 50, c.flags, c.k0, c.kout, c.d]
      ++ (push_le c.numShards 4 ++ (push_le c.seed 8 ++ (push_le c.next_perm_pos 4
        ++ (push_le c.window 2 ++ (push_le c.burst 2 ++ (push_le c.lanes.length 2
          ++ c.lanes.flatMap serialize_lane))))))).getD 6 0 = c.kout := by
    simp [List.getD]
  have hg7 : ([66, 67, 87, 50, c.flags, c.k0, c.kout, c.d]
      ++ (push_le c.numShards 4 ++ (push_le c.seed 8 ++ (push_le c.next_perm_pos 4
        ++ (push_le c.window 2 ++ (push_le c.burst 2 ++ (push_le c.lanes.length 2
          ++ c.lanes.flatMap serialize_lane))))))).getD 7 0 = c.d := by
    simp [List.getD]
  rw [hg4, hg5, hg6, hg7]
  obtain ⟨pres, flags, k0, kout, d, ns, sd, npp, win, bur, lanes⟩ := c
  dsimp only at hpres ⊢
  rw [hpres]

theorem serialize_lane_lt (ln : LaneState) (h : lane_valid ln) :
    ∀ y ∈ serialize_lane ln, y < 256 := by
  intro y hy
  unfold lane_valid at h
  unfold serialize_lane at hy
  by_cases ha : ln.active
  · rw [if_pos ha] at h
    obtain ⟨hpp, hmode, hvm⟩ := h
    simp only [ha, if_true] at hy
    rcases List.mem_append.mp hy with h1 | h1
    · simp at h1; omega
    · rcases List.mem_append.mp h1 with h2 | h2
      · rcases List.mem_append.mp h2 with h3 | h3
        · exact push_le_lt _ _ _ h3
        · simp at h3; omega
      · by_cases hm : ln.mode = 0
        · rw [if_pos hm] at hvm h2
          exact push_le_lt _ _ _ h2
        · rw [if_neg hm] at hvm h2
          obtain ⟨haf, hpa, hvc⟩ := hvm
          rcases List.mem_append.mp h2 with h3 | h3
          · rcases List.mem_append.mp h3 with h4 | h4
            · exact push_le_lt _ _ _ h4
            · by_cases hcp : ln.child_present <;> simp [hcp] at h4 <;> omega
          · by_cases hcp : ln.child_present
            · rw [if_pos hcp] at hvc h3
              obtain ⟨hLb, hlib, hrib⟩ := hvc
              rcases List.mem_append.mp h3 with h4 | h4
              · rcases List.mem_append.mp h4 with h5 | h5
                · simp at h5; omega
                · exact push_le_lt _ _ _ h5
              · exact push_le_lt _ _ _ h4
            · rw [if_neg hcp] at h3
              simp at h3
  · rw [if_neg ha] at h
    simp only [ha, if_false] at hy
    simp at hy
    omega

theorem cursor_bytes_lt (c : WindowCursor) (hv : cursor_valid c) :
    ∀ y ∈ cursor_bytes c, y < 256 := by
  obtain ⟨hpres, hflags, hk0, hkout, hd, hns, hseed, hnpp, hwin, hburst, hlc, hlanes⟩ := hv
  intro y hy
  unfold cursor_bytes at hy
  rcases List.mem_append.mp hy with h1 | h1
  · rcases List.mem_append.mp h1 with h2 | h2
    · rcases List.mem_append.mp h2 with h3 | h3
      · rcases List.mem_append.mp h3 with h4 | h4
        · rcases List.mem_append.mp h4 with h5 | h5
          · rcases List.mem_append.mp h5 with h6 | h6
            · rcases List.mem_append.mp h6 with h7 | h7
              · simp at h7
                rcases h7 with h | h | h | h | h | h | h | h <;> omega
              · exact push_le_lt _ _ _ h7
            · exact push_le_lt _ _ _ h6
          · exact push_le_lt _ _ _ h5
        · exact push_le_lt _ _ _ h4
      · exact push_le_lt _ _ _ h3
    · exact push_le_lt _ _ _ h2
  · obtain ⟨ln, hln, hyln⟩ := List.mem_flatMap.mp h1
    exact serialize_lane_lt ln (hlanes ln hln) y hyln

theorem getD_lt {b : List Nat} (hb : ∀ x ∈ b, x < 256) (i : Nat) : b.getD i 0 < 256 := by
  by_cases h : i < b.length
  · rw [List.getD_eq_getElem _ _ h]
    exact hb _ (List.getElem_mem h)
  · rw [List.getD_eq_default _ _ (by omega)]
    omega

theorem le_val_lt {b : List Nat} (hb : ∀ x ∈ b, x < 256) (off : Nat) :
    ∀ n, le_val b off n < 2 ^ (8 * n) := by
  intro n
  induction n with
  | zero => simp [le_val]
  | succ n ih =>
    rw [le_val, Nat.lor_comm, shl_or_eq _ _ _ ih]
    have h1 : b.getD (off + n) 0 < 256 := getD_lt hb _
    have h2 : (2 : Nat) ^ (8 * (n + 1)) = 256 * 2 ^ (8 * n) := by
      rw [Nat.mul_succ, pow_add]
      ring
    rw [h2]
    have h3 := Nat.pos_pow_of_pos (8 * n) (show 0 < 2 by omega)
    nlinarith

theorem b64_decode_go_lt :
    ∀ (s : List Char) (buf bits : Nat) (out : List Nat),
      b64_decode_go s buf bits = some out → ∀ x ∈ out, x < 256 := by
  intro s
  induction s with
  | nil =>
    intro buf bits out h x hx
    simp [b64_decode_go] at h
    subst h
    simp at hx
  | cons ch rest ih =>
    intro buf bits out h x hx
    rw [b64_decode_go] at h
    rcases hidx : b64_char_index ch with _ | v
    · rw [hidx] at h; simp at h
    · rw [hidx] at h
      dsimp only at h
      by_cases hb : 8 ≤ bits + 6
      · rw [if_pos hb] at h
        rcases hrec : b64_decode_go rest (((buf <<< 6) ||| v) % 2 ^ 32) (bits + 6 - 8)
          with _ | out2
        · rw [hrec] at h; simp at h
        · rw [hrec] at h
          dsimp only at h
          cases h
          rcases List.mem_cons.mp hx with h1 | h1
          · subst h1
            rw [and255_eq]
            omega
          · exact ih _ _ _ hrec x h1
      · rw [if_neg hb] at h
        exact ih _ _ _ h x hx

theorem read_u16_lt {b : List Nat} (hb : ∀ x ∈ b, x < 256) {off v : Nat}
    (h : read_u16_le b off = some v) : v < 2 ^ 16 := by
  unfold read_u16_le at h
  by_cases hc : off + 2 ≤ b.length
  · rw [if_pos hc] at h
    cases h
    exact le_val_lt hb off 2
  · rw [if_neg hc] at h; cases h

theorem read_u32_lt {b : List Nat} (hb : ∀ x ∈ b, x < 256) {off v : Nat}
    (h : read_u32_le b off = some v) : v < 2 ^ 32 := by
  unfold read_u32_le at h
  by_cases hc : off + 4 ≤ b.length
  · rw [if_pos hc] at h
    cases h
    exact le_val_lt hb off 4
  · rw [if_neg hc] at h; cases h

theorem read_u64_lt {b : List Nat} (hb : ∀ x ∈ b, x < 256) {off v : Nat}
    (h : read_u64_le b off = some v) : v < 2 ^ 64 := by
  unfold read_u64_le at h
  by_cases hc : off + 8 ≤ b.length
  · rw [if_pos hc] at h
    cases h
    exact le_val_lt hb off 8
  · rw [if_neg hc] at h; cases h

theorem lane_valid_default : lane_valid ({} : LaneState) := by
  unfold lane_valid
  rfl

theorem parse_lanes_sound {b : List Nat} (hb : ∀ x ∈ b, x < 256) :
    ∀ n off ls off2, parse_lanes b off n = some (ls, off2) →
      ls.length = n ∧ ∀ ln ∈ ls, lane_valid ln := by
  intro n
  induction n with
  | zero =>
    intro off ls off2 h
    rw [parse_lanes] at h
    cases h
    simp
  | succ n ih =>
    intro off ls off2 h
    rw [parse_lanes] at h
    split at h
    · split at h
      · -- inactive lane
        split at h
        · rename_i ls2 o2 hrec
          cases h
          obtain ⟨hlen2, hval2⟩ := ih _ _ _ hrec
          refine ⟨by simp [hlen2], ?_⟩
          intro ln hln
          rcases List.mem_cons.mp hln with rfl | hln2
          · exact lane_valid_default
          · exact hval2 _ hln2
        · cases h
      · -- active lane
        split at h
        · split at h
          · cases h
          · rename_i pp hpp
            dsimp only at h
            split at h
            · -- mode = 0
              rename_i hm0
              split at h
              · cases h
              · rename_i af haf
                split at h
                · rename_i ls2 o2 hrec
                  cases h
                  obtain ⟨hlen2, hval2⟩ := ih _ _ _ hrec
                  refine ⟨by simp [hlen2], ?_⟩
                  intro ln hln
                  rcases List.mem_cons.mp hln with rfl | hln2
                  · unfold lane_valid
                    refine ⟨read_u32_lt hb hpp, by norm_num, ?_⟩
                    rw [if_pos rfl]
                    exact ⟨read_u64_lt hb haf, rfl, rfl, rfl, rfl, rfl⟩
                  · exact hval2 _ hln2
                · cases h
            · -- mode ≠ 0
              rename_i hm0
              split at h
              · cases h
              · rename_i pa hpa
                split at h
                · split at h
                  · -- child_present = 0
                    split at h
                    · rename_i ls2 o2 hrec
                      cases h
                      obtain ⟨hlen2, hval2⟩ := ih _ _ _ hrec
                      refine ⟨by simp [hlen2], ?_⟩
                      intro ln hln
                      rcases List.mem_cons.mp hln with rfl | hln2
                      · unfold lane_valid
                        refine ⟨read_u32_lt hb hpp, getD_lt hb _, ?_⟩
                        rw [if_neg hm0]
                        refine ⟨rfl, read_u64_lt hb hpa, ?_⟩
                        rw [if_neg (by simp)]
                        exact ⟨rfl, rfl, rfl⟩
                      · exact hval2 _ hln2
                    · cases h
                  · -- child_present = 1
                    split at h
                    · split at h
                      · rename_i li ri hli hri
                        split at h
                        · rename_i ls2 o2 hrec
                          cases h
                          obtain ⟨hlen2, hval2⟩ := ih _ _ _ hrec
                          refine ⟨by simp [hlen2], ?_⟩
                          intro ln hln
                          rcases List.mem_cons.mp hln with rfl | hln2
                          · unfold lane_valid
                            refine ⟨read_u32_lt hb hpp, getD_lt hb _, ?_⟩
                            rw [if_neg hm0]
                            refine ⟨rfl, read_u64_lt hb hpa, ?_⟩
                            rw [if_pos (by simp)]
                            exact ⟨getD_lt hb _, read_u64_lt hb hli, read_u64_lt hb hri⟩
                          · exact hval2 _ hln2
                        · cases h
                      · cases h
                    · cases h
                · cases h
        · cases h
    · cases h

theorem parse_cursor_bytes_sound {b : List Nat} (hb : ∀ x ∈ b, x < 256)
    {c : WindowCursor} (h : parse_cursor_bytes b = some c) : cursor_valid c := by
  unfold parse_cursor_bytes at h
  split at h
  · cases h
  · split at h
    · cases h
    · split at h
      · rename_i ns sd npp win bur lc hns hsd hnpp hwin hbur hlc
        split at h
        · rename_i ls o2 hls
          cases h
          obtain ⟨hlen, hval⟩ := parse_lanes_sound hb _ _ _ _ hls
          exact ⟨rfl, getD_lt hb _, getD_lt hb _, getD_lt hb _, getD_lt hb _,
            read_u32_lt hb hns, read_u64_lt hb hsd, read_u32_lt hb hnpp,
            read_u16_lt hb hwin, read_u16_lt hb hbur,
            by rw [hlen]; exact read_u16_lt hb hlc, hval⟩
        · cases h
      · cases h

theorem parse_cursor_bcw2_sound (token : List Char) :
    parse_cursor_bcw2 token = none ∨
      ∃ c, parse_cursor_bcw2 token = some c ∧ cursor_valid c := by
  unfold parse_cursor_bcw2
  rcases hdec : b64url_decode token with _ | b
  · exact Or.inl rfl
  · have hb : ∀ x ∈ b, x < 256 := b64_decode_go_lt token 0 0 b hdec
    dsimp only
    rcases hp : parse_cursor_bytes b with _ | c
    · exact Or.inl rfl
    · exact Or.inr ⟨c, rfl, parse_cursor_bytes_sound hb hp⟩

theorem make_parse_cursor (c : WindowCursor) (hv : cursor_valid c) :
    parse_cursor_bcw2 (make_cursor_bcw2 c) = some c := by
  unfold parse_cursor_bcw2 make_cursor_bcw2 b64url_encode b64url_decode
  rw [(b64_go_roundtrip (cursor_bytes c) (cursor_bytes_lt c hv)).1 0 0]
  exact parse_cursor_bytes_ser c hv

/-! ## Lane refill (`refill_lane`) -/

theorem advance_state_dec (d : Nat) (s : ExpSt) (h : (advance_state d s).1 = true) :
    Prod.Lex (· < ·) (Prod.Lex (· < ·) (· < ·))
      ((advance_state d s).2.L,
        pow4 (advance_state d s).2.L - (advance_state d s).2.left_idx,
        pow4 (d - (advance_state d s).2.L) - (advance_state d s).2.right_idx)
      (s.L, pow4 s.L - s.left_idx, pow4 (d - s.L) - s.right_idx) := by
  by_cases h1 : s.right_idx + 1 < pow4 (d - s.L)
  · have e : advance_state d s = (true, ⟨s.L, s.left_idx, s.right_idx + 1⟩) := by
      unfold advance_state; rw [if_pos h1]
    rw [e]
    exact Prod.Lex.right _ (Prod.Lex.right _ (by dsimp only; omega))
  · by_cases h2 : s.left_idx + 1 < pow4 s.L
    · have e : advance_state d s = (true, ⟨s.L, s.left_idx + 1, 0⟩) := by
        unfold advance_state; rw [if_neg h1, if_pos h2]
      rw [e]
      exact Prod.Lex.right _ (Prod.Lex.left _ _ (by dsimp only; omega))
    · by_cases h3 : s.L = 0
      · have e : advance_state d s = (false, ⟨s.L, 0, 0⟩) := by
          unfold advance_state; rw [if_neg h1, if_neg h2, if_pos h3]
        rw [e] at h
        cases h
      · have e : advance_state d s = (true, ⟨s.L - 1, 0, 0⟩) := by
          unfold advance_state; rw [if_neg h1, if_neg h2, if_neg h3]
        rw [e]
        exact Prod.Lex.left _ _ (by dsimp only; omega)

/-- The runtime state of one window lane (`struct LaneRuntime`); the loaded
bitmap is not stored here but supplied as a membership function. -/
structure LaneRt where
  active : Bool := false
  perm_pos : Nat := 0
  shardIdx : Nat := 0
  after : Nat := U64MAX
  parent_anchor : Nat := U64MAX
  child_present : Bool := false
  st : ExpSt := ⟨0, 0, 0⟩
  buf : List Nat := []
  buf_pos : Nat := 0
deriving DecidableEq

/-- The mode-0 scan loop of `refill_lane`: walk keys upward from `v`, skip
present keys, push leaf-filter survivors, stop at `end` or a full buffer.
Returns the buffer and the final `v`. -/
def refill0Go (contains : Nat → Bool) (kout gcMinPct gcMaxPct : Nat)
    (substring_set : Bool) (patterns : List Pattern) (endV target : Nat) :
    Nat → Nat → List Nat → List Nat × Nat
  | 0, v, buf => (buf, v)
  | fuel + 1, v, buf =>
    if v < endV ∧ buf.length < target then
      if contains v then
        refill0Go contains kout gcMinPct gcMaxPct substring_set patterns endV target
          fuel (v + 1) buf
      else if leaf_ok v kout gcMinPct gcMaxPct substring_set patterns then
        refill0Go contains kout gcMinPct gcMaxPct substring_set patterns endV target
          fuel (v + 1) (buf ++ [v])
      else
        refill0Go contains kout gcMinPct gcMaxPct substring_set patterns endV target
          fuel (v + 1) buf
    else (buf, v)

/-- The mode-0 scan loop entered at `v`: `endV - v` iterations always reach the
loop's own exit condition, so the counter of `refill0Go` never runs out. -/
def refill0Loop (contains : Nat → Bool) (kout gcMinPct gcMaxPct : Nat)
    (substring_set : Bool) (patterns : List Pattern) (endV target : Nat)
    (v : Nat) (buf : List Nat) : List Nat × Nat :=
  refill0Go contains kout gcMinPct gcMaxPct substring_set patterns endV target
    (endV - v) v buf

/-- The `while (parentB < end && contains(parentB)) parentB++` skip loop,
counted down by its own measure `endV - b` (exact: the guard fails whenever
the counter is out). -/
def findAbsentGo (contains : Nat → Bool) (endV : Nat) : Nat → Nat → Nat
  | 0, b => b
  | fuel + 1, b =>
    if b < endV ∧ contains b then findAbsentGo contains endV fuel (b + 1) else b

def findAbsent (contains : Nat → Bool) (endV : Nat) (b : Nat) : Nat :=
  findAbsentGo contains endV (endV - b) b

theorem refill0Loop_unfold (contains : Nat → Bool) (kout gcMinPct gcMaxPct : Nat)
    (substring_set : Bool) (patterns : List Pattern) (endV target v : Nat)
    (buf : List Nat) :
    refill0Loop contains kout gcMinPct gcMaxPct substring_set patterns endV target
        v buf =
      if v < endV ∧ buf.length < target then
        if contains v then
          refill0Loop contains kout gcMinPct gcMaxPct substring_set patterns endV
            target (v + 1) buf
        else if leaf_ok v kout gcMinPct gcMaxPct substring_set patterns then
          refill0Loop contains kout gcMinPct gcMaxPct substring_set patterns endV
            target (v + 1) (buf ++ [v])
        else
          refill0Loop contains kout gcMinPct gcMaxPct substring_set patterns endV
            target (v + 1) buf
      else (buf, v) := by
  unfold refill0Loop
  by_cases h : v < endV
  · have hf : endV - v = (endV - (v + 1)) + 1 := by omega
    rw [hf, refill0Go]
  · have h0 : endV - v = 0 := by omega
    rw [h0, refill0Go]
    rw [if_neg (fun hc => absurd hc.1 h)]

theorem findAbsent_unfold (contains : Nat → Bool) (endV b : Nat) :
    findAbsent contains endV b =
      if b < endV ∧ contains b then findAbsent contains endV (b + 1) else b := by
  unfold findAbsent
  by_cases h : b < endV
  · have hf : endV - b = (endV - (b + 1)) + 1 := by omega
    rw [hf, findAbsentGo]
  · have h0 : endV - b = 0 := by omega
    rw [h0, findAbsentGo]
    rw [if_neg (fun hc => absurd hc.1 h)]

theorem findAbsentGo_ge (contains : Nat → Bool) (endV : Nat) :
    ∀ fuel b, b ≤ findAbsentGo contains endV fuel b := by
  intro fuel
  induction fuel with
  | zero => intro b; exact Nat.le_refl b
  | succ n ih =>
    intro b
    rw [findAbsentGo]
    split
    · exact Nat.le_trans (Nat.le_succ b) (ih (b + 1))
    · exact Nat.le_refl b

theorem findAbsent_ge (contains : Nat → Bool) (endV b : Nat) :
    b ≤ findAbsent contains endV b :=
  findAbsentGo_ge contains endV (endV - b) b

/-- The inner per-parent emission loop of the expand-mode `refill_lane`:
emit `make_value` children passing the leaf filter until the buffer is full
or `advance_state` reports exhaustion.  Returns the buffer, the final
`(L,left,right)` state and the `exhausted_parent` flag. -/
def expandLoop (d k0 kout gcMinPct gcMaxPct : Nat) (substring_set : Bool)
    (patterns : List Pattern) (target parentB : Nat) :
    Nat → ExpSt → List Nat → List Nat × ExpSt × Bool
  | 0, s, buf => (buf, s, false)
  | fuel + 1, s, buf =>
    if buf.length < target then
      let vX := make_value parentB k0 kout s.L s.left_idx s.right_idx
      let buf2 := if leaf_ok vX kout gcMinPct gcMaxPct substring_set patterns
        then buf ++ [vX] else buf
      let a := advance_state d s
      if a.1 = true then
        expandLoop d k0 kout gcMinPct gcMaxPct substring_set patterns target parentB
          fuel a.2 buf2
      else (buf2, a.2, true)
    else (buf, s, false)

/-- An upper bound on the length of the `advance_state` chain out of `s` (the
chain is finite from every state, `advance_state_dec`): enough counter for
`expandLoop` to reach exhaustion or a full buffer from any state a cursor
can inject. -/
def expandFuel (d : Nat) (s : ExpSt) : Nat :=
  (s.L + 1) * (pow4 s.L + pow4 d + 3) + s.right_idx + 3

/-- The result of the expand-mode outer loop: either the lane retired (no
absent parent left) or the persisted `(parent_anchor, child_present, state)`. -/
inductive ExpRes where
  | retired (parent_anchor : Nat) (child_present : Bool) (st : ExpSt)
  | persist (parent_anchor : Nat) (child_present : Bool) (st : ExpSt)
deriving DecidableEq

/-- The parent scan position the outer expand loop resumes from: `startV`
before the first parent, the anchor itself while its children are streaming,
the successor of a finished anchor.  Here and below, the outer
`while (lane.buf.size() < refill_target)` loop of the expand-mode
`refill_lane` takes the lane fields `(parent_anchor, child_present,
(L,left,right))` as arguments; each outer iteration starts after the previous
absent parent, so `refill_lane` passes the always-sufficient iteration count
`endV + 1`. -/
def expPStart (startV panch : Nat) (cp : Bool) : Nat :=
  if panch = U64MAX then startV else if cp then panch else panch + 1

def refillExpandGo (contains : Nat → Bool) (d k0 kout gcMinPct gcMaxPct : Nat)
    (substring_set : Bool) (patterns : List Pattern) (target startV endV : Nat) :
    Nat → Nat → Bool → ExpSt → List Nat → List Nat × ExpRes
  | 0, panch, cp, st, buf => (buf, ExpRes.persist panch cp st)
  | fuel + 1, panch, cp, st, buf =>
    if buf.length < target then
      let parentB := findAbsent contains endV (expPStart startV panch cp)
      if parentB < endV then
        let s0 := if cp ∧ panch = parentB then st else init_state_first d
        let r := expandLoop d k0 kout gcMinPct gcMaxPct substring_set patterns target
          parentB (expandFuel d s0) s0 buf
        if target ≤ r.1.length then (r.1, ExpRes.persist parentB true r.2.1)
        else
          refillExpandGo contains d k0 kout gcMinPct gcMaxPct substring_set patterns
            target startV endV fuel parentB false ⟨0, 0, 0⟩ r.1
      else (buf, ExpRes.retired panch cp st)
    else (buf, ExpRes.persist panch cp st)

/-- The static configuration of one streaming run: the request parameters,
the shard layout, the permutation (a fixed seed determines it), and each
shard's bitmap as a membership function. -/
structure EngCfg where
  k0 : Nat
  kout : Nat
  gcMinPct : Nat
  gcMaxPct : Nat
  substring_set : Bool
  patterns : List Pattern
  refill_chunk : Nat
  window : Nat
  burst : Nat
  limit : Nat
  numShards : Nat
  shard_starts : List Nat
  shard_ends : List Nat
  random_access : Bool
  seed : Nat
  perm : Nat → Nat
  bms : Nat → Nat → Bool

/-- Embeds `refill_lane`: clear the buffer, dispatch on mode, scan
(`refill0Loop`) or expand (`refillExpandGo`), and update the lane fields the
way the C++ does (mode 0 retires at `v == end`, else `after := v - 1`). -/
def refill_lane (cfg : EngCfg) (ln0 : LaneRt) : LaneRt :=
  let ln := { ln0 with buf := ([] : List Nat), buf_pos := 0 }
  if ln.active = false then ln
  else if cfg.kout = cfg.k0 then
    if cfg.shard_starts.length ≤ ln.shardIdx ∨ cfg.shard_ends.length ≤ ln.shardIdx then
      { ln with active := false }
    else
      let start := cfg.shard_starts.getD ln.shardIdx 0
      let endV := cfg.shard_ends.getD ln.shardIdx 0
      let v0 := if ln.after = U64MAX then start else ln.after + 1
      let r := refill0Loop (cfg.bms ln.shardIdx) cfg.kout cfg.gcMinPct cfg.gcMaxPct
        cfg.substring_set cfg.patterns endV cfg.refill_chunk v0 []
      if r.2 = endV then { ln with buf := r.1, active := false }
      else { ln with buf := r.1, after := r.2 - 1 }
  else
    if cfg.shard_starts.length ≤ ln.shardIdx ∨ cfg.shard_ends.length ≤ ln.shardIdx then
      { ln with active := false }
    else
      let start := cfg.shard_starts.getD ln.shardIdx 0
      let endV := cfg.shard_ends.getD ln.shardIdx 0
      let r := refillExpandGo (cfg.bms ln.shardIdx) (cfg.kout - cfg.k0) cfg.k0 cfg.kout
        cfg.gcMinPct cfg.gcMaxPct cfg.substring_set cfg.patterns cfg.refill_chunk
        start endV (endV + 1) ln.parent_anchor ln.child_present ln.st []
      match r.2 with
      | ExpRes.retired pa cp stt =>
        { ln with
          buf := r.1, parent_anchor := pa, child_present := cp, st := stt,
          active := false }
      | ExpRes.persist pa cp stt =>
        { ln with buf := r.1, parent_anchor := pa, child_present := cp, st := stt }

/-- Embeds `try_fill_empty_lane`: an inactive lane takes the next permutation
position (when one is left), loads that shard and resets its per-mode state.
Shard loads always succeed in this model.  Returns the lane and the new
`next_perm_pos`. -/
def try_fill_empty_lane (cfg : EngCfg) (ln : LaneRt) (npp : Nat) : LaneRt × Nat :=
  if ln.active = true then (ln, npp)
  else if npp < cfg.numShards then
    let ln2 := { ln with
                 perm_pos := npp, shardIdx := cfg.perm npp,
                 buf := ([] : List Nat), buf_pos := 0, active := true }
    (if cfg.kout = cfg.k0 then { ln2 with after := U64MAX }
     else { ln2 with
            parent_anchor := U64MAX, child_present := false,
            st := (⟨0, 0, 0⟩ : ExpSt) }, npp + 1)
  else (ln, npp)

/-- The refill phase of one engine iteration, lane by lane in index order
(exact for `window = 1`; the C++ uses one thread per lane): a drained active
lane is refilled, and a lane that retires is freed — its buffer is discarded —
and immediately reseeded from the remaining permutation positions. -/
def refillPhase (cfg : EngCfg) : List LaneRt → Nat → List LaneRt × Nat
  | [], npp => ([], npp)
  | ln :: rest, npp =>
    if ln.active = true ∧ ln.buf.length ≤ ln.buf_pos then
      let ln2 := refill_lane cfg ln
      if ln2.active = false then
        let r := try_fill_empty_lane cfg
          { ln2 with active := false, buf := ([] : List Nat), buf_pos := 0 } npp
        let t := refillPhase cfg rest r.2
        (r.1 :: t.1, t.2)
      else
        let t := refillPhase cfg rest npp
        (ln2 :: t.1, t.2)
    else
      let t := refillPhase cfg rest npp
      (ln :: t.1, t.2)

/-- Drain up to `fuel` (= burst) buffered values from one lane into `out`,
stopping at `need`; a mode-0 drain overwrites `after` with the drained value.
The third component reports whether anything was emitted. -/
def drainLane (mode0 : Bool) (need : Nat) : Nat → LaneRt → List Nat →
    LaneRt × List Nat × Bool
  | 0, ln, out => (ln, out, false)
  | fuel + 1, ln, out =>
    if out.length < need ∧ ln.buf_pos < ln.buf.length then
      let v := ln.buf.getD ln.buf_pos 0
      let ln2 := { ln with
                   buf_pos := ln.buf_pos + 1,
                   after := if mode0 then v else ln.after }
      let r := drainLane mode0 need fuel ln2 (out ++ [v])
      (r.1, r.2.1, true)
    else (ln, out, false)

/-- The round-robin emission phase: each active lane in turn yields up to
`burst` values while the output holds fewer than `need`. -/
def emissionPhase (mode0 : Bool) (need burst : Nat) : List LaneRt → List Nat →
    List LaneRt × List Nat × Bool
  | [], out => ([], out, false)
  | ln :: rest, out =>
    if ln.active = true ∧ out.length < need then
      let r := drainLane mode0 need burst ln out
      let t := emissionPhase mode0 need burst rest r.2.1
      (r.1 :: t.1, t.2.1, r.2.2 || t.2.2)
    else
      let t := emissionPhase mode0 need burst rest out
      (ln :: t.1, t.2.1, t.2.2)

/-- The engine's mutable state between iterations of the main scan loop. -/
structure EngSt where
  lanes : List LaneRt
  next_perm_pos : Nat
  out_vals : List Nat
deriving DecidableEq

/-- The main `while (out_vals.size() < need)` loop: refill, then round-robin
emission, exiting when the output is full, no lane is active, or an iteration
emitted nothing and left no active lane.  `none` when `fuel` runs out. -/
def engineLoop (cfg : EngCfg) (need : Nat) : Nat → EngSt → Option EngSt
  | 0, _ => none
  | fuel + 1, st =>
    if st.out_vals.length < need then
      if st.lanes.any (fun ln => ln.active) then
        let r := refillPhase cfg st.lanes st.next_perm_pos
        let e := emissionPhase (decide (cfg.kout = cfg.k0)) need cfg.burst r.1 st.out_vals
        let st2 : EngSt := ⟨e.1, r.2, e.2.1⟩
        if e.2.2 = false ∧ st2.lanes.all (fun ln => ln.active = false) then some st2
        else engineLoop cfg need fuel st2
      else some st
    else some st

/-- The cursor main builds from the final engine state: header fields from the
request (with the C++ `uint8_t` casts) and one serialized lane per runtime
lane. -/
def cursor_of_state (cfg : EngCfg) (st : EngSt) : WindowCursor :=
  { present := true
    flags := if cfg.random_access then 1 else 0
    k0 := cfg.k0 % 256
    kout := cfg.kout % 256
    d := (cfg.kout - cfg.k0) % 256
    numShards := cfg.numShards % 2 ^ 32
    seed := cfg.seed
    next_perm_pos := st.next_perm_pos
    window := cfg.window
    burst := cfg.burst
    lanes := st.lanes.map (fun ln =>
      if ln.active = false then {}
      else if cfg.kout = cfg.k0 then
        { active := true, perm_pos := ln.perm_pos, mode := 0, after := ln.after }
      else
        { active := true, perm_pos := ln.perm_pos, mode := 1,
          parent_anchor := ln.parent_anchor, child_present := ln.child_present,
          L := ln.st.L, left_idx := ln.st.left_idx, right_idx := ln.st.right_idx }) }

/-- The post-loop bookkeeping of main: truncate `out_vals` at `limit` (setting
`hasMore`), otherwise derive `hasMore` from buffered or expand-mode active
lanes and unconsumed permutation positions, and build the next cursor. -/
def engineFinish (cfg : EngCfg) (st : EngSt) : List Nat × Bool × Option WindowCursor :=
  if cfg.limit < st.out_vals.length then
    (st.out_vals.take cfg.limit, true, some (cursor_of_state cfg st))
  else
    let hasMore := (st.lanes.any fun ln =>
        ln.active && (decide (ln.buf_pos < ln.buf.length) || decide (cfg.k0 < cfg.kout)))
      || decide (st.next_perm_pos < cfg.numShards)
    if hasMore then (st.out_vals, true, some (cursor_of_state cfg st))
    else (st.out_vals, false, none)

/-- Embeds `load_lane_from_state`: rebuild one runtime lane from a cursor
lane (an inactive or out-of-range lane stays default). -/
def load_lane_from_state (cfg : EngCfg) (ls : LaneState) : LaneRt :=
  if ls.active = true ∧ ls.perm_pos < cfg.numShards then
    let base : LaneRt :=
      { active := true, perm_pos := ls.perm_pos, shardIdx := cfg.perm ls.perm_pos,
        buf := ([] : List Nat), buf_pos := 0 }
    if cfg.kout = cfg.k0 then { base with after := ls.after }
    else { base with
           parent_anchor := ls.parent_anchor,
           child_present := ls.child_present,
           st := (⟨ls.L, ls.left_idx, ls.right_idx⟩ : ExpSt) }
  else {}

/-- The initial lane vector and `next_perm_pos`: defaults for a fresh run,
lanes rebuilt from the cursor on a resume. -/
def lanesFromCursor (cfg : EngCfg) (cur : Option WindowCursor) : List LaneRt × Nat :=
  match cur with
  | none => (List.replicate cfg.window {}, 0)
  | some c =>
    ((List.range cfg.window).map (fun i => load_lane_from_state cfg (c.lanes.getD i {})),
      c.next_perm_pos)

/-- The pre-loop pass that seeds every still-empty lane from the permutation. -/
def initFill (cfg : EngCfg) : List LaneRt → Nat → List LaneRt × Nat
  | [], npp => ([], npp)
  | ln :: rest, npp =>
    let r := try_fill_empty_lane cfg ln npp
    let t := initFill cfg rest r.2
    (r.1 :: t.1, t.2)

/-- One whole run of the streaming tool from an optional cursor: returns the
page, the `hasMore` flag and the next cursor (`none` only on fuel
exhaustion). -/
def engineRun (cfg : EngCfg) (fuel : Nat) (cur : Option WindowCursor) :
    Option (List Nat × Bool × Option WindowCursor) :=
  let l0 := lanesFromCursor cfg cur
  let l1 := initFill cfg l0.1 l0.2
  match engineLoop cfg (cfg.limit + 1) fuel ⟨l1.1, l1.2, []⟩ with
  | none => none
  | some st => some (engineFinish cfg st)

/-- Chain pages by re-running with each returned cursor until `hasMore` is
false; `none` when the page budget or the per-run fuel runs out. -/
def collectPages (cfg : EngCfg) (fuel : Nat) : Nat → Option WindowCursor → Option (List Nat)
  | 0, _ => none
  | pages + 1, cur =>
    match engineRun cfg fuel cur with
    | none => none
    | some r =>
      if r.2.1 = true then
        match collectPages cfg fuel pages r.2.2 with
        | none => none
        | some rest => some (r.1 ++ rest)
      else some r.1


/-- The survival predicate of the mode-0 scan: not in the bitmap and passing
the leaf filters. -/
def keep0 (contains : Nat → Bool) (kout gcMinPct gcMaxPct : Nat)
    (substring_set : Bool) (patterns : List Pattern) (v : Nat) : Bool :=
  !contains v && leaf_ok v kout gcMinPct gcMaxPct substring_set patterns

theorem refill0Go_spec (contains : Nat → Bool) (kout gcMinPct gcMaxPct : Nat)
    (substring_set : Bool) (patterns : List Pattern) (endV target : Nat) :
    ∀ fuel v buf, endV ≤ v + fuel → v ≤ endV → buf.length ≤ target →
      ∃ vf, v ≤ vf ∧ vf ≤ endV ∧
        refill0Go contains kout gcMinPct gcMaxPct substring_set patterns endV target
            fuel v buf =
          (buf ++ (List.range' v (vf - v)).filter
            (keep0 contains kout gcMinPct gcMaxPct substring_set patterns), vf) ∧
        (vf = endV ∨
          (buf ++ (List.range' v (vf - v)).filter
            (keep0 contains kout gcMinPct gcMaxPct substring_set patterns)).length
            = target) := by
  intro fuel
  induction fuel with
  | zero =>
    intro v buf hf hv _
    refine ⟨v, Nat.le_refl v, hv, ?_, Or.inl (by omega)⟩
    rw [refill0Go]
    simp
  | succ n ih =>
    intro v buf hf hv hb
    rw [refill0Go]
    by_cases hg : v < endV ∧ buf.length < target
    · rw [if_pos hg]
      have hstep : ∀ b2 : List Nat, b2.length ≤ target →
          (∀ vf, v + 1 ≤ vf →
            b2 ++ (List.range' (v + 1) (vf - (v + 1))).filter
              (keep0 contains kout gcMinPct gcMaxPct substring_set patterns)
            = buf ++ (List.range' v (vf - v)).filter
              (keep0 contains kout gcMinPct gcMaxPct substring_set patterns)) →
          (∃ vf, v ≤ vf ∧ vf ≤ endV ∧
            refill0Go contains kout gcMinPct gcMaxPct substring_set patterns endV target
              n (v + 1) b2 =
              (buf ++ (List.range' v (vf - v)).filter
                (keep0 contains kout gcMinPct gcMaxPct substring_set patterns), vf) ∧
            (vf = endV ∨
              (buf ++ (List.range' v (vf - v)).filter
                (keep0 contains kout gcMinPct gcMaxPct substring_set patterns)).length
                = target)) := by
        intro b2 hb2 heq
        obtain ⟨vf, h1, h2, h3, h4⟩ := ih (v + 1) b2 (by omega) (by omega) hb2
        refine ⟨vf, by omega, h2, ?_, ?_⟩
        · rw [h3, heq vf h1]
        · rcases h4 with h4 | h4
          · exact Or.inl h4
          · exact Or.inr (by rw [← heq vf h1]; exact h4)
      by_cases hc : contains v = true
      · rw [if_pos hc]
        refine hstep buf (by omega) ?_
        intro vf hvf
        have hr : List.range' v (vf - v) = v :: List.range' (v + 1) (vf - (v + 1)) := by
          have : vf - v = (vf - (v + 1)) + 1 := by omega
          rw [this, List.range'_succ]
        rw [hr, List.filter_cons]
        have : keep0 contains kout gcMinPct gcMaxPct substring_set patterns v = false := by
          simp [keep0, hc]
        rw [this]
        simp
      · rw [if_neg hc]
        have hcf : contains v = false := by
          cases h : contains v
          · rfl
          · exact absurd h hc
        by_cases hl : leaf_ok v kout gcMinPct gcMaxPct substring_set patterns = true
        · rw [if_pos hl]
          refine hstep (buf ++ [v]) ?_ ?_
          · by_cases he : buf.length + 1 ≤ target
            · simpa using he
            · exact absurd hg.2 (by omega)
          · intro vf hvf
            have hr : List.range' v (vf - v) = v :: List.range' (v + 1) (vf - (v + 1)) := by
              have : vf - v = (vf - (v + 1)) + 1 := by omega
              rw [this, List.range'_succ]
            rw [hr, List.filter_cons]
            have : keep0 contains kout gcMinPct gcMaxPct substring_set patterns v = true := by
              simp [keep0, hcf, hl]
            rw [this]
            simp
        · rw [if_neg hl]
          refine hstep buf (by omega) ?_
          intro vf hvf
          have hr : List.range' v (vf - v) = v :: List.range' (v + 1) (vf - (v + 1)) := by
            have : vf - v = (vf - (v + 1)) + 1 := by omega
            rw [this, List.range'_succ]
          rw [hr, List.filter_cons]
          have : keep0 contains kout gcMinPct gcMaxPct substring_set patterns v = false := by
            simp only [keep0, Bool.and_eq_false_iff]
            right
            cases h : leaf_ok v kout gcMinPct gcMaxPct substring_set patterns
            · rfl
            · exact absurd h hl
          rw [this]
          simp
    · rw [if_neg hg]
      refine ⟨v, Nat.le_refl v, hv, by simp, ?_⟩
      rcases Decidable.not_and_iff_or_not.mp hg with h | h
      · exact Or.inl (by omega)
      · refine Or.inr ?_
        simp only [Nat.sub_self, List.range', List.filter_nil, List.append_nil]
        omega

theorem refill0Loop_spec (contains : Nat → Bool) (kout gcMinPct gcMaxPct : Nat)
    (substring_set : Bool) (patterns : List Pattern) (endV target v : Nat)
    (hv : v ≤ endV) :
    ∃ vf, v ≤ vf ∧ vf ≤ endV ∧
      refill0Loop contains kout gcMinPct gcMaxPct substring_set patterns endV target
          v [] =
        ((List.range' v (vf - v)).filter
          (keep0 contains kout gcMinPct gcMaxPct substring_set patterns), vf) ∧
      (vf = endV ∨
        ((List.range' v (vf - v)).filter
          (keep0 contains kout gcMinPct gcMaxPct substring_set patterns)).length
          = target) := by
  obtain ⟨vf, h1, h2, h3, h4⟩ := refill0Go_spec contains kout gcMinPct gcMaxPct
    substring_set patterns endV target (endV - v) v [] (by omega) hv (by simp)
  exact ⟨vf, h1, h2, by simpa using h3, by simpa using h4⟩


theorem refill0Go_mem (contains : Nat → Bool) (kout gcMinPct gcMaxPct : Nat)
    (substring_set : Bool) (patterns : List Pattern) (endV target : Nat) :
    ∀ fuel v buf, ∀ x ∈ (refill0Go contains kout gcMinPct gcMaxPct substring_set
        patterns endV target fuel v buf).1,
      x ∈ buf ∨ (contains x = false ∧
        leaf_ok x kout gcMinPct gcMaxPct substring_set patterns = true) := by
  intro fuel
  induction fuel with
  | zero =>
    intro v buf x hx
    rw [refill0Go] at hx
    exact Or.inl hx
  | succ n ih =>
    intro v buf x hx
    rw [refill0Go] at hx
    by_cases hg : v < endV ∧ buf.length < target
    · rw [if_pos hg] at hx
      by_cases hc : contains v = true
      · rw [if_pos hc] at hx
        exact ih (v + 1) buf x hx
      · rw [if_neg hc] at hx
        have hcf : contains v = false := by
          cases h : contains v
          · rfl
          · exact absurd h hc
        by_cases hl : leaf_ok v kout gcMinPct gcMaxPct substring_set patterns = true
        · rw [if_pos hl] at hx
          rcases ih (v + 1) (buf ++ [v]) x hx with h | h
          · rcases List.mem_append.mp h with h | h
            · exact Or.inl h
            · have : x = v := by simpa using h
              subst this
              exact Or.inr ⟨hcf, hl⟩
          · exact Or.inr h
        · rw [if_neg hl] at hx
          exact ih (v + 1) buf x hx
    · rw [if_neg hg] at hx
      exact Or.inl hx

theorem findAbsentGo_absent (contains : Nat → Bool) (endV : Nat) :
    ∀ fuel b, endV ≤ b + fuel →
      findAbsentGo contains endV fuel b < endV →
      contains (findAbsentGo contains endV fuel b) = false := by
  intro fuel
  induction fuel with
  | zero =>
    intro b hf hlt
    rw [findAbsentGo] at hlt ⊢
    omega
  | succ n ih =>
    intro b hf hlt
    rw [findAbsentGo] at hlt ⊢
    by_cases hg : b < endV ∧ contains b = true
    · rw [if_pos hg] at hlt ⊢
      exact ih (b + 1) (by omega) hlt
    · rw [if_neg hg] at hlt ⊢
      rcases Decidable.not_and_iff_or_not.mp hg with h | h
      · omega
      · cases hcb : contains b
        · rfl
        · exact absurd hcb h

theorem findAbsent_absent (contains : Nat → Bool) (endV b : Nat)
    (h : findAbsent contains endV b < endV) :
    contains (findAbsent contains endV b) = false :=
  findAbsentGo_absent contains endV (endV - b) b (by omega) h

theorem expandLoop_mem (d k0 kout gcMinPct gcMaxPct : Nat) (substring_set : Bool)
    (patterns : List Pattern) (target parentB : Nat) :
    ∀ fuel s buf, ∀ x ∈ (expandLoop d k0 kout gcMinPct gcMaxPct substring_set
        patterns target parentB fuel s buf).1,
      x ∈ buf ∨ (leaf_ok x kout gcMinPct gcMaxPct substring_set patterns = true ∧
        ∃ t : ExpSt, x = make_value parentB k0 kout t.L t.left_idx t.right_idx) := by
  intro fuel
  induction fuel with
  | zero =>
    intro v buf x hx
    rw [expandLoop] at hx
    exact Or.inl hx
  | succ n ih =>
    intro sst buf x hx
    rw [expandLoop] at hx
    by_cases hg : buf.length < target
    · rw [if_pos hg] at hx
      have hbuf2 : ∀ y ∈ (if leaf_ok (make_value parentB k0 kout sst.L sst.left_idx
            sst.right_idx) kout gcMinPct gcMaxPct substring_set patterns
          then buf ++ [make_value parentB k0 kout sst.L sst.left_idx sst.right_idx]
          else buf),
          y ∈ buf ∨ (leaf_ok y kout gcMinPct gcMaxPct substring_set patterns = true ∧
            ∃ t : ExpSt, y = make_value parentB k0 kout t.L t.left_idx t.right_idx) := by
        intro y hy
        by_cases hl : leaf_ok (make_value parentB k0 kout sst.L sst.left_idx
            sst.right_idx) kout gcMinPct gcMaxPct substring_set patterns = true
        · rw [if_pos hl] at hy
          rcases List.mem_append.mp hy with h | h
          · exact Or.inl h
          · have : y = make_value parentB k0 kout sst.L sst.left_idx sst.right_idx := by
              simpa using h
            subst this
            exact Or.inr ⟨hl, sst, rfl⟩
        · rw [if_neg hl] at hy
          exact Or.inl hy
      by_cases ha : (advance_state d sst).1 = true
      · rw [if_pos ha] at hx
        rcases ih (advance_state d sst).2 _ x hx with h | h
        · exact hbuf2 x h
        · exact Or.inr h
      · rw [if_neg ha] at hx
        exact hbuf2 x hx
    · rw [if_neg hg] at hx
      exact Or.inl hx

theorem refillExpandGo_mem (contains : Nat → Bool) (d k0 kout gcMinPct gcMaxPct : Nat)
    (substring_set : Bool) (patterns : List Pattern) (target startV endV : Nat) :
    ∀ fuel panch cp stt buf, ∀ x ∈ (refillExpandGo contains d k0 kout gcMinPct
        gcMaxPct substring_set patterns target startV endV fuel panch cp stt buf).1,
      x ∈ buf ∨ (leaf_ok x kout gcMinPct gcMaxPct substring_set patterns = true ∧
        ∃ B, contains B = false ∧ B < endV ∧
          ∃ t : ExpSt, x = make_value B k0 kout t.L t.left_idx t.right_idx) := by
  intro fuel
  induction fuel with
  | zero =>
    intro panch cp stt buf x hx
    rw [refillExpandGo] at hx
    exact Or.inl hx
  | succ n ih =>
    intro panch cp stt buf x hx
    rw [refillExpandGo] at hx
    by_cases hg : buf.length < target
    · rw [if_pos hg] at hx
      by_cases hp : findAbsent contains endV (expPStart startV panch cp) < endV
      · rw [if_pos hp] at hx
        have habs : contains (findAbsent contains endV (expPStart startV panch cp))
            = false := findAbsent_absent contains endV _ hp
        have hexp : ∀ s0 : ExpSt, ∀ y ∈ (expandLoop d k0 kout gcMinPct gcMaxPct
              substring_set patterns target
              (findAbsent contains endV (expPStart startV panch cp))
              (expandFuel d s0) s0 buf).1,
            y ∈ buf ∨ (leaf_ok y kout gcMinPct gcMaxPct substring_set patterns = true ∧
              ∃ B, contains B = false ∧ B < endV ∧
                ∃ t : ExpSt, y = make_value B k0 kout t.L t.left_idx t.right_idx) := by
          intro s0 y hy
          rcases expandLoop_mem d k0 kout gcMinPct gcMaxPct substring_set patterns
              target _ (expandFuel d s0) s0 buf y hy with h | h
          · exact Or.inl h
          · exact Or.inr ⟨h.1, _, habs, hp, h.2⟩
        by_cases hfull : target ≤ (expandLoop d k0 kout gcMinPct gcMaxPct
            substring_set patterns target
            (findAbsent contains endV (expPStart startV panch cp))
            (expandFuel d (if cp ∧ panch = findAbsent contains endV
              (expPStart startV panch cp) then stt else init_state_first d))
            (if cp ∧ panch = findAbsent contains endV (expPStart startV panch cp)
              then stt else init_state_first d) buf).1.length
        · rw [if_pos hfull] at hx
          exact hexp _ x hx
        · rw [if_neg hfull] at hx
          rcases ih _ false ⟨0, 0, 0⟩ _ x hx with h | h
          · exact hexp _ x h
          · exact Or.inr h
      · rw [if_neg hp] at hx
        exact Or.inl hx
    · rw [if_neg hg] at hx
      exact Or.inl hx


theorem refill0Loop_mem (contains : Nat → Bool) (kout gcMinPct gcMaxPct : Nat)
    (substring_set : Bool) (patterns : List Pattern) (endV target v : Nat)
    (buf : List Nat) :
    ∀ x ∈ (refill0Loop contains kout gcMinPct gcMaxPct substring_set patterns
        endV target v buf).1,
      x ∈ buf ∨ (contains x = false ∧
        leaf_ok x kout gcMinPct gcMaxPct substring_set patterns = true) := by
  intro x hx
  exact refill0Go_mem contains kout gcMinPct gcMaxPct substring_set patterns endV
    target (endV - v) v buf x hx

theorem refill_lane_mem (cfg : EngCfg) (ln : LaneRt) :
    ∀ x ∈ (refill_lane cfg ln).buf,
      leaf_ok x cfg.kout cfg.gcMinPct cfg.gcMaxPct cfg.substring_set cfg.patterns
          = true ∧
      (cfg.kout = cfg.k0 → cfg.bms ln.shardIdx x = false) ∧
      (cfg.kout ≠ cfg.k0 → ∃ B, cfg.bms ln.shardIdx B = false ∧
        B < cfg.shard_ends.getD ln.shardIdx 0 ∧
        ∃ t : ExpSt, x = make_value B cfg.k0 cfg.kout t.L t.left_idx t.right_idx) := by
  intro x hx
  unfold refill_lane at hx
  dsimp only at hx
  split at hx
  · simp at hx
  · split at hx
    · rename_i hmode
      split at hx
      · simp at hx
      · have key : ∀ v : Nat, x ∈ (refill0Loop (cfg.bms ln.shardIdx) cfg.kout
            cfg.gcMinPct cfg.gcMaxPct cfg.substring_set cfg.patterns
            (cfg.shard_ends.getD ln.shardIdx 0) cfg.refill_chunk v []).1 →
            leaf_ok x cfg.kout cfg.gcMinPct cfg.gcMaxPct cfg.substring_set
                cfg.patterns = true ∧
              (cfg.kout = cfg.k0 → cfg.bms ln.shardIdx x = false) ∧
              (cfg.kout ≠ cfg.k0 → ∃ B, cfg.bms ln.shardIdx B = false ∧
                B < cfg.shard_ends.getD ln.shardIdx 0 ∧
                ∃ t : ExpSt, x = make_value B cfg.k0 cfg.kout t.L t.left_idx
                  t.right_idx) := by
          intro v hv
          rcases refill0Loop_mem (cfg.bms ln.shardIdx) cfg.kout cfg.gcMinPct
              cfg.gcMaxPct cfg.substring_set cfg.patterns
              (cfg.shard_ends.getD ln.shardIdx 0) cfg.refill_chunk v [] x hv
            with h | h
          · simp at h
          · exact ⟨h.2, fun _ => h.1, fun hne => absurd hmode hne⟩
        split at hx <;> split at hx <;> exact key _ (by simpa using hx)
    · rename_i hmode
      split at hx
      · simp at hx
      · have hmem : x ∈ (refillExpandGo (cfg.bms ln.shardIdx) (cfg.kout - cfg.k0)
            cfg.k0 cfg.kout cfg.gcMinPct cfg.gcMaxPct cfg.substring_set cfg.patterns
            cfg.refill_chunk (cfg.shard_starts.getD ln.shardIdx 0)
            (cfg.shard_ends.getD ln.shardIdx 0)
            (cfg.shard_ends.getD ln.shardIdx 0 + 1)
            ln.parent_anchor ln.child_present ln.st []).1 := by
          split at hx <;> simpa using hx
        rcases refillExpandGo_mem (cfg.bms ln.shardIdx) (cfg.kout - cfg.k0) cfg.k0
            cfg.kout cfg.gcMinPct cfg.gcMaxPct cfg.substring_set cfg.patterns
            cfg.refill_chunk (cfg.shard_starts.getD ln.shardIdx 0)
            (cfg.shard_ends.getD ln.shardIdx 0)
            (cfg.shard_ends.getD ln.shardIdx 0 + 1)
            ln.parent_anchor ln.child_present ln.st [] x hmem with h | h
        · simp at h
        · exact ⟨h.1, fun he => absurd he hmode, fun _ => h.2⟩


theorem refill_lane_mode0_spec (cfg : EngCfg) (ln : LaneRt)
    (h0 : cfg.kout = cfg.k0) (ha : ln.active = true)
    (h1 : ln.shardIdx < cfg.shard_starts.length)
    (h2 : ln.shardIdx < cfg.shard_ends.length)
    (hv : (if ln.after = U64MAX then cfg.shard_starts.getD ln.shardIdx 0
           else ln.after + 1) ≤ cfg.shard_ends.getD ln.shardIdx 0) :
    ∃ vf,
      (if ln.after = U64MAX then cfg.shard_starts.getD ln.shardIdx 0
       else ln.after + 1) ≤ vf ∧
      vf ≤ cfg.shard_ends.getD ln.shardIdx 0 ∧
      (refill_lane cfg ln).buf =
        (List.range' (if ln.after = U64MAX then cfg.shard_starts.getD ln.shardIdx 0
            else ln.after + 1)
          (vf - (if ln.after = U64MAX then cfg.shard_starts.getD ln.shardIdx 0
            else ln.after + 1))).filter
          (keep0 (cfg.bms ln.shardIdx) cfg.kout cfg.gcMinPct cfg.gcMaxPct
            cfg.substring_set cfg.patterns) ∧
      ((refill_lane cfg ln).active = true ↔ vf ≠ cfg.shard_ends.getD ln.shardIdx 0) ∧
      ((refill_lane cfg ln).active = true → (refill_lane cfg ln).after = vf - 1) ∧
      (vf = cfg.shard_ends.getD ln.shardIdx 0 ∨
        (refill_lane cfg ln).buf.length = cfg.refill_chunk) := by
  have hb : ¬ (cfg.shard_starts.length ≤ ln.shardIdx ∨
      cfg.shard_ends.length ≤ ln.shardIdx) := by omega
  obtain ⟨vf, hv1, hv2, heq, hfull⟩ := refill0Loop_spec (cfg.bms ln.shardIdx) cfg.kout
    cfg.gcMinPct cfg.gcMaxPct cfg.substring_set cfg.patterns
    (cfg.shard_ends.getD ln.shardIdx 0) cfg.refill_chunk
    (if ln.after = U64MAX then cfg.shard_starts.getD ln.shardIdx 0 else ln.after + 1)
    hv
  have hact : ¬ ({ ln with buf := ([] : List Nat), buf_pos := 0 } : LaneRt).active
      = false := by
    simp [ha]
  refine ⟨vf, hv1, hv2, ?_, ?_, ?_, ?_⟩
  · unfold refill_lane
    dsimp only
    rw [if_neg hact, if_pos h0, if_neg hb, heq]
    by_cases hvf : vf = cfg.shard_ends.getD ln.shardIdx 0
    · rw [if_pos hvf]
    · rw [if_neg hvf]
  · unfold refill_lane
    dsimp only
    rw [if_neg hact, if_pos h0, if_neg hb, heq]
    by_cases hvf : vf = cfg.shard_ends.getD ln.shardIdx 0
    · rw [if_pos hvf]
      simpa using hvf
    · rw [if_neg hvf]
      simpa [ha] using hvf
  · unfold refill_lane
    dsimp only
    rw [if_neg hact, if_pos h0, if_neg hb, heq]
    by_cases hvf : vf = cfg.shard_ends.getD ln.shardIdx 0
    · rw [if_pos hvf]
      simp
    · rw [if_neg hvf]
      simp
  · unfold refill_lane
    dsimp only
    rw [if_neg hact, if_pos h0, if_neg hb, heq]
    rcases hfull with h | h
    · exact Or.inl h
    · by_cases hvf : vf = cfg.shard_ends.getD ln.shardIdx 0
      · exact Or.inl hvf
      · rw [if_neg hvf]
        exact Or.inr (by simpa using h)


/-- The 2-bit base lookup of the membership tool (`base_lut`); `255` is the
invalid marker `0xFF`. -/
def lut_digit (c : Char) : Nat :=
  if c = 'A' ∨ c = 'a' then 0
  else if c = 'C' ∨ c = 'c' then 1
  else if c = 'G' ∨ c = 'g' then 2
  else if c = 'T' ∨ c = 't' then 3
  else 255

def encode_kmer_go (v : Nat) : List Char → Option Nat
  | [] => some v
  | c :: rest =>
    if lut_digit c = 255 then none
    else encode_kmer_go (((v <<< 2) ||| lut_digit c) % 2 ^ 64) rest

/-- Embeds `encode_kmer_sv`: `none` for a wrong length or an invalid base. -/
def encode_kmer_sv (sv : List Char) (k : Nat) : Option Nat :=
  if sv.length ≠ k then none else encode_kmer_go 0 sv

/-- The binary search of `find_shard` over `(start, end)` ranges; the counter
only bounds the halving (`shards.length` always suffices). -/
def find_shard_go (shards : List (Nat × Nat)) (idx : Nat) : Nat → Nat → Nat → Option Nat
  | 0, _, _ => none
  | fuel + 1, lo, hi =>
    if lo < hi then
      let mid := lo + (hi - lo) / 2
      let sh := shards.getD mid (0, 0)
      if idx < sh.1 then find_shard_go shards idx fuel lo mid
      else if sh.2 ≤ idx then find_shard_go shards idx fuel (mid + 1) hi
      else some mid
    else none

def find_shard (shards : List (Nat × Nat)) (idx : Nat) : Option Nat :=
  if shards.isEmpty then none
  else find_shard_go shards idx shards.length 0 shards.length

/-- The input loop of the membership tool: skip empty lines, encode the rest,
fail (exit 3) on the first line of wrong length or with an invalid base. -/
def parseKmers (k : Nat) : List (List Char) → Except Nat (List (List Char × Nat))
  | [] => Except.ok []
  | l :: ls =>
    if l.isEmpty = true then parseKmers k ls
    else
      match encode_kmer_sv l k with
      | none => Except.error 3
      | some v =>
        match parseKmers k ls with
        | Except.error e => Except.error e
        | Except.ok r => Except.ok ((l, v) :: r)

/-- The bucketing pass: every key must fall in some shard range (exit 2
otherwise). -/
def assignShards (shards : List (Nat × Nat)) :
    List (List Char × Nat) → Option (List ((List Char × Nat) × Nat))
  | [] => some []
  | it :: rest =>
    match find_shard shards it.2 with
    | none => none
    | some sid =>
      match assignShards shards rest with
      | none => none
      | some r => some ((it, sid) :: r)

/-- The whole sharded membership run: parse and validate the input lines, check
the index, bucket each key, then probe — a shard whose load fails leaves the
default flag `0` for its keys (`if (!sbm) continue;`) and the run still exits
0. -/
def runMembership (k : Nat) (shards : List (Nat × Nat))
    (loads : Nat → Option (Nat → Bool)) (lines : List (List Char)) :
    Except Nat (List (List Char × Char)) :=
  match parseKmers k lines with
  | Except.error e => Except.error e
  | Except.ok items =>
    if shards.isEmpty = true then Except.error 2
    else if shards.any (fun sh => sh.2 ≤ sh.1) then Except.error 2
    else
      match assignShards shards items with
      | none => Except.error 2
      | some asg =>
        Except.ok (asg.map (fun a =>
          (a.1.1, match loads a.2 with
            | none => '0'
            | some bm => if bm a.1.2 then '1' else '0')))

theorem find_shard_go_correct (shards : List (Nat × Nat)) (idx m : Nat)
    (hsorted : ∀ i j, i < j → j < shards.length →
      (shards.getD i (0, 0)).2 ≤ (shards.getD j (0, 0)).1)
    (hrange : ∀ i, i < shards.length →
      (shards.getD i (0, 0)).1 < (shards.getD i (0, 0)).2)
    (hm : m < shards.length)
    (hin1 : (shards.getD m (0, 0)).1 ≤ idx) (hin2 : idx < (shards.getD m (0, 0)).2) :
    ∀ fuel lo hi, lo ≤ m → m < hi → hi ≤ shards.length → hi - lo ≤ fuel →
      find_shard_go shards idx fuel lo hi = some m := by
  intro fuel
  induction fuel with
  | zero =>
    intro lo hi hlo hhi _ hf
    omega
  | succ n ih =>
    intro lo hi hlo hhi hhs hf
    rw [find_shard_go]
    have hlt : lo < hi := by omega
    rw [if_pos hlt]
    have hmid : lo + (hi - lo) / 2 < shards.length := by omega
    by_cases hc1 : idx < (shards.getD (lo + (hi - lo) / 2) (0, 0)).1
    · rw [if_pos hc1]
      have hmlt : m < lo + (hi - lo) / 2 := by
        by_contra hc
        rcases Nat.lt_or_ge (lo + (hi - lo) / 2) m with h | h
        · have h1 := hsorted (lo + (hi - lo) / 2) m h hm
          have h2 := hrange (lo + (hi - lo) / 2) hmid
          omega
        · have : m = lo + (hi - lo) / 2 := by omega
          rw [this] at hin1
          omega
      exact ih lo (lo + (hi - lo) / 2) hlo hmlt (by omega) (by omega)
    · rw [if_neg hc1]
      by_cases hc2 : (shards.getD (lo + (hi - lo) / 2) (0, 0)).2 ≤ idx
      · rw [if_pos hc2]
        have hmgt : lo + (hi - lo) / 2 < m := by
          by_contra hc
          rcases Nat.lt_or_ge m (lo + (hi - lo) / 2) with h | h
          · have h1 := hsorted m (lo + (hi - lo) / 2) h hmid
            have h2 := hrange (lo + (hi - lo) / 2) hmid
            omega
          · have : m = lo + (hi - lo) / 2 := by omega
            rw [this] at hin2
            omega
        exact ih (lo + (hi - lo) / 2 + 1) hi (by omega) hhi hhs (by omega)
      · rw [if_neg hc2]
        have heq : lo + (hi - lo) / 2 = m := by
          rcases Nat.lt_or_ge (lo + (hi - lo) / 2) m with h | h
          · have h1 := hsorted (lo + (hi - lo) / 2) m h hm
            omega
          · rcases Nat.lt_or_ge m (lo + (hi - lo) / 2) with h3 | h3
            · have h1 := hsorted m (lo + (hi - lo) / 2) h3 hmid
              omega
            · omega
        rw [heq]

theorem find_shard_correct (shards : List (Nat × Nat)) (idx m : Nat)
    (hsorted : ∀ i j, i < j → j < shards.length →
      (shards.getD i (0, 0)).2 ≤ (shards.getD j (0, 0)).1)
    (hrange : ∀ i, i < shards.length →
      (shards.getD i (0, 0)).1 < (shards.getD i (0, 0)).2)
    (hm : m < shards.length)
    (hin1 : (shards.getD m (0, 0)).1 ≤ idx) (hin2 : idx < (shards.getD m (0, 0)).2) :
    find_shard shards idx = some m := by
  unfold find_shard
  rw [if_neg (by
    intro hc
    rw [List.isEmpty_iff] at hc
    rw [hc] at hm
    simp at hm)]
  exact find_shard_go_correct shards idx m hsorted hrange hm hin1 hin2
    shards.length 0 shards.length (by omega) hm (Nat.le_refl _) (by omega)


theorem parseKmers_ok (k : Nat) (enc : List Char → Nat) :
    ∀ lines : List (List Char),
      (∀ l ∈ lines, l.isEmpty = false → encode_kmer_sv l k = some (enc l)) →
      parseKmers k lines =
        Except.ok ((lines.filter (fun l => !l.isEmpty)).map (fun l => (l, enc l))) := by
  intro lines
  induction lines with
  | nil => intro _; rfl
  | cons l ls ih =>
    intro h
    rw [parseKmers]
    by_cases he : l.isEmpty = true
    · rw [if_pos he]
      rw [ih (fun x hx hne => h x (List.mem_cons_of_mem l hx) hne)]
      rw [List.filter_cons]
      simp [he]
    · rw [if_neg he]
      have hb : l.isEmpty = false := by
        cases hb2 : l.isEmpty
        · rfl
        · exact absurd hb2 he
      rw [h l (List.mem_cons_self l ls) hb]
      rw [ih (fun x hx hne => h x (List.mem_cons_of_mem l hx) hne)]
      rw [List.filter_cons]
      simp [hb]

theorem assignShards_ok (shards : List (Nat × Nat)) (own : List Char → Nat) :
    ∀ items : List (List Char × Nat),
      (∀ it ∈ items, find_shard shards it.2 = some (own it.1)) →
      assignShards shards items = some (items.map (fun it => (it, own it.1))) := by
  intro items
  induction items with
  | nil => intro _; rfl
  | cons it rest ih =>
    intro h
    rw [assignShards]
    rw [h it (List.mem_cons_self it rest)]
    rw [ih (fun x hx => h x (List.mem_cons_of_mem it hx))]
    simp

theorem runMembership_spec (k : Nat) (shards : List (Nat × Nat))
    (loads : Nat → Option (Nat → Bool)) (lines : List (List Char))
    (enc : List Char → Nat) (own : List Char → Nat)
    (bmOf : List Char → (Nat → Bool))
    (hne : shards.isEmpty = false)
    (hranges : ∀ sh ∈ shards, sh.1 < sh.2)
    (hsorted : ∀ i j, i < j → j < shards.length →
      (shards.getD i (0, 0)).2 ≤ (shards.getD j (0, 0)).1)
    (henc : ∀ l ∈ lines, l.isEmpty = false → encode_kmer_sv l k = some (enc l))
    (hown : ∀ l ∈ lines, l.isEmpty = false → own l < shards.length ∧
      (shards.getD (own l) (0, 0)).1 ≤ enc l ∧ enc l < (shards.getD (own l) (0, 0)).2)
    (hload : ∀ l ∈ lines, l.isEmpty = false → loads (own l) = some (bmOf l)) :
    runMembership k shards loads lines =
      Except.ok ((lines.filter (fun l => !l.isEmpty)).map
        (fun l => (l, if bmOf l (enc l) then '1' else '0'))) := by
  have hrange2 : ∀ i, i < shards.length →
      (shards.getD i (0, 0)).1 < (shards.getD i (0, 0)).2 := by
    intro i hi
    have : shards.getD i (0, 0) ∈ shards := by
      rw [List.getD_eq_getElem shards (0, 0) hi]
      exact List.getElem_mem hi
    exact hranges _ this
  unfold runMembership
  rw [parseKmers_ok k enc lines henc]
  rw [hne]
  dsimp only
  rw [if_neg (show ¬(false = true) by decide)]
  rw [if_neg (by
    intro hcontra
    rcases List.any_eq_true.mp hcontra with ⟨sh, hsh, hdec⟩
    have := hranges sh hsh
    simp only [decide_eq_true_eq] at hdec
    omega)]
  have hmemfilter : ∀ l ∈ lines.filter (fun l => !l.isEmpty),
      l ∈ lines ∧ l.isEmpty = false := by
    intro l hl
    have := List.mem_filter.mp hl
    exact ⟨this.1, by simpa using this.2⟩
  rw [assignShards_ok shards (fun l => own l)
    ((lines.filter (fun l => !l.isEmpty)).map (fun l => (l, enc l)))
    (by
      intro it hit
      rcases List.mem_map.mp hit with ⟨l, hl, hle⟩
      obtain ⟨hl1, hl2⟩ := hmemfilter l hl
      obtain ⟨ho1, ho2, ho3⟩ := hown l hl1 hl2
      subst hle
      exact find_shard_correct shards (enc l) (own l) hsorted hrange2 ho1 ho2 ho3)]
  dsimp only
  rw [List.map_map, List.map_map]
  refine congrArg Except.ok (List.map_congr_left ?_)
  intro l hl
  obtain ⟨hl1, hl2⟩ := hmemfilter l hl
  simp only [Function.comp_apply]
  rw [hload l hl1 hl2]


theorem encode_kmer_go_none :
    ∀ sv : List Char, ∀ v : Nat,
      encode_kmer_go v sv = none ↔ ∃ c ∈ sv, lut_digit c = 255 := by
  intro sv
  induction sv with
  | nil =>
    intro v
    rw [encode_kmer_go]
    simp
  | cons c rest ih =>
    intro v
    rw [encode_kmer_go]
    by_cases hc : lut_digit c = 255
    · rw [if_pos hc]
      constructor
      · intro _
        exact ⟨c, List.mem_cons_self c rest, hc⟩
      · intro _
        rfl
    · rw [if_neg hc]
      rw [ih]
      constructor
      · intro h
        rcases h with ⟨x, hx, hlut⟩
        exact ⟨x, List.mem_cons_of_mem c hx, hlut⟩
      · intro h
        rcases h with ⟨x, hx, hlut⟩
        rcases List.mem_cons.mp hx with rfl | hx2
        · exact absurd hlut hc
        · exact ⟨x, hx2, hlut⟩

/-- `encode_kmer_sv` fails exactly on a wrong length or a non-ACGT base
(`base_lut` marker 255). -/
theorem encode_kmer_sv_none_iff (sv : List Char) (k : Nat) :
    encode_kmer_sv sv k = none ↔
      (sv.length ≠ k ∨ ∃ c ∈ sv, lut_digit c = 255) := by
  unfold encode_kmer_sv
  by_cases hl : sv.length ≠ k
  · rw [if_pos hl]
    simp [hl]
  · rw [if_neg hl]
    rw [encode_kmer_go_none]
    constructor
    · intro h
      exact Or.inr h
    · intro h
      rcases h with h | h
      · exact absurd h hl
      · exact h

/-- The input loop aborts with exit 3 as soon as it meets a nonempty line the
encoder rejects, wherever that line sits in the input. -/
theorem parseKmers_error (k : Nat) :
    ∀ lines : List (List Char), ∀ l ∈ lines, l.isEmpty = false →
      encode_kmer_sv l k = none → parseKmers k lines = Except.error 3 := by
  intro lines
  induction lines with
  | nil =>
    intro l hl
    simp at hl
  | cons x xs ih =>
    intro l hl hlne hlenc
    rw [parseKmers]
    rcases List.mem_cons.mp hl with rfl | hl2
    · rw [if_neg (by simp [hlne])]
      rw [hlenc]
    · by_cases hx : x.isEmpty = true
      · rw [if_pos hx]
        exact ih l hl2 hlne hlenc
      · rw [if_neg hx]
        rw [ih l hl2 hlne hlenc]
        cases encode_kmer_sv x k
        · rfl
        · rfl

theorem runMembership_error3 (k : Nat) (shards : List (Nat × Nat))
    (loads : Nat → Option (Nat → Bool)) (lines : List (List Char))
    (l : List Char) (hl : l ∈ lines) (hlne : l.isEmpty = false)
    (hbad : l.length ≠ k ∨ ∃ c ∈ l, lut_digit c = 255) :
    runMembership k shards loads lines = Except.error 3 := by
  unfold runMembership
  rw [parseKmers_error k lines l hl hlne ((encode_kmer_sv_none_iff l k).mpr hbad)]

/-- The 64-byte KBITv1 header (`write_le64_u` fields at offsets 8..55, magic
`"KBITv1\0"` padded to 8 bytes, reserved tail zero). -/
def kbit_header (total_bits ones k seed flags payload_len : Nat) : List Nat :=
  [75, 66, 73, 84, 118, 49, 0, 0] ++ push_le total_bits 8 ++ push_le ones 8 ++
    push_le k 8 ++ push_le seed 8 ++ push_le flags 8 ++ push_le payload_len 8 ++
    List.replicate 8 0

/-- One 64-bit word of the dense generator: bit `b` (LSB-first, `w |= 1 << b`)
marks key `base + b`. -/
def dense_word (ones : Nat → Bool) (base bits_here : Nat) : Nat :=
  (List.range bits_here).foldl
    (fun w b => if ones (base + b) then w ||| (1 <<< b) else w) 0

/-- The generator's word loop (`while (remaining)`), one word per iteration;
the counter `total_bits` always outlasts the `remaining / 64` iterations. -/
def dense_words_go (ones : Nat → Bool) : Nat → Nat → Nat → List Nat
  | 0, _, _ => []
  | fuel + 1, base, remaining =>
    if remaining = 0 then []
    else
      dense_word ones base (if 64 ≤ remaining then 64 else remaining) ::
        dense_words_go ones fuel (base + 64)
          (remaining - (if 64 ≤ remaining then 64 else remaining))

/-- The dense payload bytes: every word serialized LSB-first as 8 bytes. -/
def dense_payload (ones : Nat → Bool) (total_bits : Nat) : List Nat :=
  (dense_words_go ones total_bits 0 total_bits).flatMap (fun w => push_le w 8)

/-- A whole file as the dense generator writes it: rewritten header with
`flags = 1` and `payload_len = ceil(total_bits/8)`, then the dense payload. -/
def kbit_dense_file (ones : Nat → Bool) (total_bits onesCount k seed : Nat) :
    List Nat :=
  kbit_header total_bits onesCount k seed 1 ((total_bits + 7) / 8) ++
    dense_payload ones total_bits

/-- The header record `load_kbit_portable` fills. -/
structure KbitHeader where
  total_bits : Nat := 0
  ones : Nat := 0
  k : Nat := 0
  seed : Nat := 0
  flags : Nat := 0
  payload_len : Nat := 0
deriving DecidableEq

/-- Embeds the query-side `load_kbit_portable` up to roaring deserialization:
64-byte header with magic check, `flags != 2` rejected, truncated payload
rejected; on success the header and the raw payload bytes. -/
def load_kbit_portable (file : List Nat) : Option (KbitHeader × List Nat) :=
  if file.length < 64 then none
  else if ¬ ([file.getD 0 0, file.getD 1 0, file.getD 2 0, file.getD 3 0,
      file.getD 4 0, file.getD 5 0, file.getD 6 0, file.getD 7 0]
      = [75, 66, 73, 84, 118, 49, 0, 0]) then none
  else
    let h : KbitHeader :=
      { total_bits := le_val file 8 8, ones := le_val file 16 8,
        k := le_val file 24 8, seed := le_val file 32 8, flags := le_val file 40 8,
        payload_len := le_val file 48 8 }
    if ¬ (h.flags = 2) then none
    else if file.length - 64 < h.payload_len then none
    else some (h, (file.drop 64).take h.payload_len)

theorem testBit_one_iff (m : Nat) : (1 : Nat).testBit m = decide (m = 0) := by
  cases m
  · decide
  · rename_i n
    rw [show (1 : Nat) = 2 ^ 0 by norm_num, Nat.testBit_two_pow]
    simp

theorem dense_word_succ (ones : Nat → Bool) (base n : Nat) :
    dense_word ones base (n + 1) =
      if ones (base + n) then dense_word ones base n ||| (1 <<< n)
      else dense_word ones base n := by
  unfold dense_word
  rw [List.range_succ, List.foldl_append]
  rfl

theorem dense_word_lt (ones : Nat → Bool) (base : Nat) :
    ∀ n, dense_word ones base n < 2 ^ n := by
  intro n
  induction n with
  | zero =>
    have h0 : dense_word ones base 0 = 0 := rfl
    rw [h0]
    simp
  | succ n ih =>
    rw [dense_word_succ]
    have h1 : dense_word ones base n < 2 ^ (n + 1) :=
      Nat.lt_of_lt_of_le ih (Nat.pow_le_pow_right (by omega) (by omega))
    split
    · refine Nat.or_lt_two_pow h1 ?_
      rw [Nat.shiftLeft_eq, Nat.one_mul]
      exact Nat.pow_lt_pow_right (by omega) (by omega)
    · exact h1

theorem dense_word_testBit (ones : Nat → Bool) (base : Nat) :
    ∀ n b, (dense_word ones base n).testBit b = (decide (b < n) && ones (base + b)) := by
  intro n
  induction n with
  | zero =>
    intro b
    have h0 : dense_word ones base 0 = 0 := rfl
    rw [h0, Nat.zero_testBit]
    simp
  | succ n ih =>
    intro b
    rw [dense_word_succ]
    cases ho : ones (base + n) with
    | false =>
      rw [if_neg (show ¬ (false = true) by decide)]
      rw [ih b]
      by_cases hb : b = n
      · subst hb
        simp [ho]
      · by_cases hlt : b < n
        · have h2 : b < n + 1 := by omega
          simp [hlt, h2]
        · have h2 : ¬ b < n + 1 := by omega
          simp [hlt, h2]
    | true =>
      rw [if_pos rfl]
      rw [Nat.testBit_or, ih b]
      by_cases hb : b = n
      · subst hb
        have h1 : (1 <<< b).testBit b = true := by
          rw [Nat.testBit_shiftLeft, testBit_one_iff]
          simp
        rw [h1]
        simp [ho]
      · have h1 : (1 <<< n).testBit b = false := by
          rw [Nat.testBit_shiftLeft, testBit_one_iff]
          by_cases hge : n ≤ b
          · have hne : ¬ (b - n = 0) := by omega
            simp [hne]
          · simp [hge]
        rw [h1]
        by_cases hlt : b < n
        · have h2 : b < n + 1 := by omega
          simp [hlt, h2]
        · have h2 : ¬ b < n + 1 := by omega
          simp [hlt, h2]

theorem push_le_getD (x : Nat) :
    ∀ n t, t < n → (push_le x n).getD t 0 = (x >>> (8 * t)) &&& 255 := by
  intro n
  induction n with
  | zero => intro t ht; omega
  | succ n ih =>
    intro t ht
    rw [push_le]
    by_cases hlt : t < n
    · rw [List.getD_append _ _ _ _ (by rw [push_le_length]; omega)]
      exact ih t hlt
    · have : t = n := by omega
      subst this
      have hlen : (push_le x t).length = t := push_le_length x t
      rw [show (push_le x t ++ [x >>> (8 * t) &&& 255]).getD t 0
          = (push_le x t ++ [x >>> (8 * t) &&& 255]).getD (t + 0) 0 by rw [Nat.add_zero]]
      rw [show t + 0 = (push_le x t).length + 0 by rw [hlen]]
      rw [getD_concat]
      rfl

theorem flatMap8_getD (ws : List Nat) :
    ∀ q t, q < ws.length → t < 8 →
      (ws.flatMap (fun w => push_le w 8)).getD (8 * q + t) 0
        = (push_le (ws.getD q 0) 8).getD t 0 := by
  induction ws with
  | nil => intro q t hq _; simp at hq
  | cons w rest ih =>
    intro q t hq ht
    rw [List.flatMap_cons]
    cases q with
    | zero =>
      rw [show 8 * 0 + t = t by omega]
      rw [List.getD_append _ _ _ _ (by rw [push_le_length]; omega)]
      rw [List.getD_cons_zero]
    | succ q =>
      have hlen : (push_le w 8).length = 8 := push_le_length w 8
      rw [show 8 * (q + 1) + t = (push_le w 8).length + (8 * q + t) by omega]
      rw [getD_concat]
      rw [List.getD_cons_succ]
      exact ih q t (by simpa using hq) ht

theorem dense_words_go_getD (ones : Nat → Bool) :
    ∀ fuel base remaining q, 64 * q < remaining → q < fuel →
      (dense_words_go ones fuel base remaining).getD q 0
        = dense_word ones (base + 64 * q)
          (if 64 ≤ remaining - 64 * q then 64 else remaining - 64 * q) := by
  intro fuel
  induction fuel with
  | zero => intro base remaining q _ hq; omega
  | succ n ih =>
    intro base remaining q hrem hq
    rw [dense_words_go]
    rw [if_neg (by omega)]
    cases q with
    | zero =>
      rw [List.getD_cons_zero]
      rw [Nat.mul_zero, Nat.add_zero, Nat.sub_zero]
    | succ q =>
      rw [List.getD_cons_succ]
      have h64 : 64 ≤ remaining := by omega
      rw [if_pos h64]
      rw [ih (base + 64) (remaining - 64) q (by omega) (by omega)]
      have e1 : base + 64 + 64 * q = base + 64 * (q + 1) := by ring
      have e2 : remaining - 64 - 64 * q = remaining - 64 * (q + 1) := by omega
      rw [e1, e2]

theorem dense_words_go_length (ones : Nat → Bool) :
    ∀ fuel base remaining, remaining ≤ 64 * fuel →
      remaining ≤ 64 * (dense_words_go ones fuel base remaining).length := by
  intro fuel
  induction fuel with
  | zero =>
    intro base remaining hb
    have h0 : dense_words_go ones 0 base remaining = [] := rfl
    rw [h0]
    simpa using hb
  | succ n ih =>
    intro base remaining hb
    rw [dense_words_go]
    by_cases hz : remaining = 0
    · rw [if_pos hz]
      simp [hz]
    · rw [if_neg hz]
      rw [List.length_cons]
      by_cases h64 : 64 ≤ remaining
      · rw [if_pos h64]
        have := ih (base + 64) (remaining - 64) (by omega)
        omega
      · rw [if_neg h64]
        have := ih (base + 64) (remaining - remaining) (by omega)
        omega

theorem dense_payload_testBit (ones : Nat → Bool) (total i : Nat) (h : i < total) :
    ((dense_payload ones total).getD (i >>> 3) 0).testBit (i &&& 7) = ones i := by
  have e3 : i >>> 3 = i / 8 := by
    rw [Nat.shiftRight_eq_div_pow]
  have e7 : i &&& 7 = i % 8 := Nat.and_pow_two_sub_one_eq_mod i 3
  rw [e3, e7]
  unfold dense_payload
  have hdd : i / 8 / 8 = i / 64 := by
    rw [Nat.div_div_eq_div_mul]
  have hq : i / 8 = 8 * (i / 64) + (i / 8) % 8 := by
    rw [← hdd]
    exact (Nat.div_add_mod (i / 8) 8).symm
  have hwords : i / 64 < (dense_words_go ones total 0 total).length := by
    have := dense_words_go_length ones total 0 total (by omega)
    omega
  rw [hq, flatMap8_getD _ (i / 64) ((i / 8) % 8) hwords (by omega)]
  rw [push_le_getD _ 8 ((i / 8) % 8) (by omega)]
  rw [Nat.testBit_and, Nat.testBit_shiftRight]
  rw [show (255 : Nat) = 2 ^ 8 - 1 by norm_num, Nat.testBit_two_pow_sub_one]
  rw [dense_words_go_getD ones total 0 total (i / 64) (by omega) (by omega)]
  rw [dense_word_testBit]
  have hbase : 0 + 64 * (i / 64) + (8 * (i / 8 % 8) + i % 8) = i := by omega
  rw [hbase]
  have hin : 8 * (i / 8 % 8) + i % 8 <
      (if 64 ≤ total - 64 * (i / 64) then 64 else total - 64 * (i / 64)) := by
    split <;> omega
  have h8 : i % 8 < 8 := by omega
  simp [hin, h8]


theorem load_rejects_dense (ones : Nat → Bool) (total o k sd : Nat) :
    load_kbit_portable (kbit_dense_file ones total o k sd) = none := by
  have hshape : kbit_dense_file ones total o k sd
      = ([75, 66, 73, 84, 118, 49, 0, 0] ++ push_le total 8 ++ push_le o 8 ++
          push_le k 8 ++ push_le sd 8) ++ (push_le 1 8 ++ (push_le ((total + 7) / 8) 8
          ++ (List.replicate 8 0 ++ dense_payload ones total))) := by
    unfold kbit_dense_file kbit_header
    simp [List.append_assoc]
  have hpre : ([75, 66, 73, 84, 118, 49, 0, 0] ++ push_le total 8 ++ push_le o 8 ++
      push_le k 8 ++ push_le sd 8).length = 40 := by
    simp [push_le_length]
  have hflags : le_val (kbit_dense_file ones total o k sd) 40 8 = 1 := by
    rw [hshape, ← hpre, le_val_push]
    norm_num
  have hlen : ¬ ((kbit_dense_file ones total o k sd).length < 64) := by
    rw [hshape]
    simp [push_le_length]
    omega
  have hmag : [(kbit_dense_file ones total o k sd).getD 0 0,
      (kbit_dense_file ones total o k sd).getD 1 0,
      (kbit_dense_file ones total o k sd).getD 2 0,
      (kbit_dense_file ones total o k sd).getD 3 0,
      (kbit_dense_file ones total o k sd).getD 4 0,
      (kbit_dense_file ones total o k sd).getD 5 0,
      (kbit_dense_file ones total o k sd).getD 6 0,
      (kbit_dense_file ones total o k sd).getD 7 0]
      = [75, 66, 73, 84, 118, 49, 0, 0] := by
    rw [hshape]
    simp
  unfold load_kbit_portable
  rw [if_neg hlen]
  rw [if_neg (not_not_intro hmag)]
  dsimp only
  rw [if_pos (by rw [hflags]; decide)]

/-- What a successful cursor validation hands back to main: the effective
seed, the resumed permutation position and the lane states. -/
structure ResumeOut where
  seed : Nat
  next_perm_pos : Nat
  lane_states : List LaneState
deriving DecidableEq

/-- Embeds the cursor-validation block of main (lines following
`if (args.cursor_set)`): parse, compare every request field, then take the
seed from the cursor (remapping 0 to 1) when random access is on, else keep
the seed already derived from the arguments. -/
def cursor_resume (token : List Char) (numShards k0 kout window burst : Nat)
    (random_access : Bool) (seed0 : Nat) : Option ResumeOut :=
  match parse_cursor_bcw2 token with
  | none => none
  | some c =>
    if ¬ (c.numShards = numShards) then none
    else if ¬ (c.k0 = k0 % 256 ∧ c.kout = kout % 256) then none
    else if ¬ (c.window = window) then none
    else if ¬ (c.burst = burst) then none
    else if ¬ ((decide (¬ (c.flags &&& 1 = 0))) = random_access) then none
    else some { seed := if random_access then (if c.seed = 0 then 1 else c.seed)
                  else seed0,
                next_perm_pos := c.next_perm_pos, lane_states := c.lanes }


theorem cursor_resume_some (token : List Char) (ns k0 kout w b : Nat) (ra : Bool)
    (s0 : Nat) (r : ResumeOut)
    (h : cursor_resume token ns k0 kout w b ra s0 = some r) :
    ∃ c, parse_cursor_bcw2 token = some c ∧ c.numShards = ns ∧ c.k0 = k0 % 256 ∧
      c.kout = kout % 256 ∧ c.window = w ∧ c.burst = b ∧
      decide (¬ (c.flags &&& 1 = 0)) = ra ∧
      (ra = true → r.seed = (if c.seed = 0 then 1 else c.seed)) ∧
      (∀ s1, cursor_resume token ns k0 kout w b ra s1 =
        some { r with seed := if ra then r.seed else s1 }) := by
  unfold cursor_resume at h
  cases hp : parse_cursor_bcw2 token with
  | none => rw [hp] at h; cases h
  | some c =>
    rw [hp] at h
    dsimp only at h
    split at h
    · cases h
    · rename_i h1
      split at h
      · cases h
      · rename_i h2
        split at h
        · cases h
        · rename_i h3
          split at h
          · cases h
          · rename_i h4
            split at h
            · cases h
            · rename_i h5
              have hh := Option.some.inj h
              refine ⟨c, rfl, not_not.mp h1, (not_not.mp h2).1, (not_not.mp h2).2,
                not_not.mp h3, not_not.mp h4, not_not.mp h5, ?_, ?_⟩
              · intro hra
                rw [← hh]
                simp [hra]
              · intro s1
                unfold cursor_resume
                rw [hp]
                dsimp only
                rw [if_neg h1, if_neg h2, if_neg h3, if_neg h4, if_neg h5]
                rw [← hh]
                cases ra
                · simp
                · simp


instance (ln : LaneState) : Decidable (lane_valid ln) := by
  unfold lane_valid
  infer_instance

instance (c : WindowCursor) : Decidable (cursor_valid c) := by
  unfold cursor_valid
  infer_instance

deriving instance DecidableEq for Except

/-! ## Concrete scenarios -/

/-- A one-shard mode-0 run, keys `[0, 48)`, empty bitmap, no filters,
`window = 1`, `burst = 1`, `refill_chunk = 16`, `limit = 1`. -/
def cfgC1 : EngCfg :=
  { k0 := 3, kout := 3, gcMinPct := 0, gcMaxPct := 100, substring_set := false,
    patterns := [], refill_chunk := 16, window := 1, burst := 1, limit := 1,
    numShards := 1, shard_starts := [0], shard_ends := [48],
    random_access := false, seed := 0, perm := fun i => i, bms := fun _ _ => false }

/-- The same run with an effectively unbounded limit. -/
def cfgC1unbounded : EngCfg :=
  { k0 := 3, kout := 3, gcMinPct := 0, gcMaxPct := 100, substring_set := false,
    patterns := [], refill_chunk := 16, window := 1, burst := 1, limit := 100,
    numShards := 1, shard_starts := [0], shard_ends := [48],
    random_access := false, seed := 0, perm := fun i => i, bms := fun _ _ => false }

/-- The `cfgC1` run with `limit = 2`, to observe the persisted `after`. -/
def cfgC5 : EngCfg :=
  { k0 := 3, kout := 3, gcMinPct := 0, gcMaxPct := 100, substring_set := false,
    patterns := [], refill_chunk := 16, window := 1, burst := 1, limit := 2,
    numShards := 1, shard_starts := [0], shard_ends := [48],
    random_access := false, seed := 0, perm := fun i => i, bms := fun _ _ => false }

/-- An expand-mode run (`k0 = 1`, `kout = 2`) over parents `[0, 4)` whose
bitmap contains exactly the value 2 (so parent 2 is skipped, but the child
value 2 of parent 0 is emitted without any probe). -/
def cfgC3 : EngCfg :=
  { k0 := 1, kout := 2, gcMinPct := 0, gcMaxPct := 100, substring_set := false,
    patterns := [], refill_chunk := 16, window := 1, burst := 1, limit := 5,
    numShards := 1, shard_starts := [0], shard_ends := [4],
    random_access := false, seed := 0, perm := fun i => i,
    bms := fun _ v => decide (v = 2) }

/-- A small mode-0 run used to instantiate the lane-level theorems. -/
def cfgW : EngCfg :=
  { k0 := 3, kout := 3, gcMinPct := 0, gcMaxPct := 100, substring_set := false,
    patterns := [], refill_chunk := 16, window := 1, burst := 1, limit := 4,
    numShards := 1, shard_starts := [0], shard_ends := [16],
    random_access := false, seed := 0, perm := fun i => i, bms := fun _ _ => false }

/-- A freshly loaded lane on shard 0. -/
def lnW : LaneRt := { active := true, shardIdx := 0 }

/-- A structurally valid cursor with one expand-mode lane and one inactive
lane. -/
def cW4 : WindowCursor :=
  { present := true, flags := 1, k0 := 18, kout := 19, d := 1, numShards := 4,
    seed := 5, next_perm_pos := 2, window := 2, burst := 1,
    lanes := [{ active := true, perm_pos := 1, mode := 1, after := U64MAX,
                parent_anchor := 7, child_present := true, L := 1, left_idx := 2,
                right_idx := 3 }, {}] }

/-- A structurally valid mode-0 cursor for the resume-validation witness. -/
def cW7 : WindowCursor :=
  { present := true, flags := 1, k0 := 18, kout := 19, d := 1, numShards := 4,
    seed := 5, next_perm_pos := 2, window := 2, burst := 1,
    lanes := [{ active := true, perm_pos := 0, mode := 0, after := 5 }, {}] }

/-- The resume data a successful validation of `cW7` yields. -/
def rW7 : ResumeOut := { seed := 5, next_perm_pos := 2, lane_states := cW7.lanes }

/-- The 16-mer `A…A`. -/
def kA16 : List Char := List.replicate 16 'A'

/-- A bitmap holding exactly the key 0. -/
def bmW : Nat → Bool := fun v => decide (v = 0)

/-! ## The claims -/

/-- C1: Pagination is claimed complete and non-duplicating, but it is not:
in the `cfgC1` scenario (one shard `[0,48)`, empty bitmap, `window = burst =
1`, `refill_chunk = 16`, `limit = 1`, fixed trivial permutation), chaining
`nextCursor` until `hasMore = false` yields `[0, 2, …, 30]`, while the single
unbounded run yields `[0, …, 31]`: the truncation at `limit + 1` discards an
emitted key whose lane `after` has already advanced past it, and a retiring
refill's undrained buffer is freed, so the two multisets differ. -/
theorem pagination_chain_diverges :
    collectPages cfgC1 300 60 none =
      some [0, 2, 4, 6, 8, 10, 12, 14, 16, 18, 20, 22, 24, 26, 28, 30] ∧
    engineRun cfgC1unbounded 300 none =
      some ([0, 1, 2, 3, 4, 5, 6, 7, 8, 9, 10, 11, 12, 13, 14, 15, 16, 17, 18, 19,
        20, 21, 22, 23, 24, 25, 26, 27, 28, 29, 30, 31], false, none) ∧
    ¬ List.Perm [0, 2, 4, 6, 8, 10, 12, 14, 16, 18, 20, 22, 24, 26, 28, 30]
      [0, 1, 2, 3, 4, 5, 6, 7, 8, 9, 10, 11, 12, 13, 14, 15, 16, 17, 18, 19,
        20, 21, 22, 23, 24, 25, 26, 27, 28, 29, 30, 31] := by
  refine ⟨by decide, by decide, by decide⟩

/-- C2: For `d = kout - k0 ≥ 1` the state machine visits every well-formed
`(L, left, right)` state exactly once in the documented order, emitting one
`make_value` child per state — `(d+1)·4^d` values in total, not `4^d`. -/
theorem expansion_emits_states (B k0 kout : Nat) (h : 1 ≤ kout - k0) :
    (child_values k0 kout B).length = ((kout - k0) + 1) * 4 ^ (kout - k0) ∧
    (emit_states (kout - k0)).Nodup ∧
    (∀ s : ExpSt, s ∈ emit_states (kout - k0) ↔ validSt (kout - k0) s) := by
  refine ⟨?_, emit_states_nodup _, fun s => emit_states_mem _ s⟩
  unfold child_values
  rw [List.length_map, emit_states_length]

/-- Witness for C2 at `d = 1`: the machine emits 8 values for an anchor. -/
theorem expansion_emits_states_witness :
    (child_values 18 19 0).length = ((19 - 18) + 1) * 4 ^ (19 - 18) ∧
    (emit_states (19 - 18)).Nodup ∧
    (∀ s : ExpSt, s ∈ emit_states (19 - 18) ↔ validSt (19 - 18) s) :=
  expansion_emits_states 0 18 19 (by decide)

/-- Counterexample to C2 as written: at `d = 1` the expansion of anchor 0
emits `8 ≠ 4^1` values, with the child value 0 emitted twice. -/
theorem expansion_not_four_pow :
    child_values 1 2 0 = [0, 4, 8, 12, 0, 1, 2, 3] ∧
    (child_values 1 2 0).length ≠ 4 ^ 1 ∧ ¬ (child_values 1 2 0).Nodup := by
  refine ⟨by decide, by decide, by decide⟩

/-- C3: Every value a lane refill buffers (hence every emitted k-mer) passes
the GC and substring leaf filters; in mode 0 it is additionally absent from
the shard bitmap, but in expand mode only the parent anchor was checked
absent — the child value itself is never probed. -/
theorem refill_buffer_filtered (cfg : EngCfg) (ln : LaneRt) (x : Nat)
    (hx : x ∈ (refill_lane cfg ln).buf) :
    leaf_ok x cfg.kout cfg.gcMinPct cfg.gcMaxPct cfg.substring_set cfg.patterns
        = true ∧
    (cfg.kout = cfg.k0 → cfg.bms ln.shardIdx x = false) ∧
    (cfg.kout ≠ cfg.k0 → ∃ B, cfg.bms ln.shardIdx B = false ∧
      B < cfg.shard_ends.getD ln.shardIdx 0 ∧
      ∃ t : ExpSt, x = make_value B cfg.k0 cfg.kout t.L t.left_idx t.right_idx) :=
  refill_lane_mem cfg ln x hx

/-- Witness for C3: the first buffered key of the `cfgW` refill. -/
theorem refill_buffer_filtered_witness :
    leaf_ok 0 cfgW.kout cfgW.gcMinPct cfgW.gcMaxPct cfgW.substring_set cfgW.patterns
        = true ∧
    (cfgW.kout = cfgW.k0 → cfgW.bms lnW.shardIdx 0 = false) ∧
    (cfgW.kout ≠ cfgW.k0 → ∃ B, cfgW.bms lnW.shardIdx B = false ∧
      B < cfgW.shard_ends.getD lnW.shardIdx 0 ∧
      ∃ t : ExpSt, 0 = make_value B cfgW.k0 cfgW.kout t.L t.left_idx t.right_idx) :=
  refill_buffer_filtered cfgW lnW 0 (by decide)

/-- Counterexample to C3 as written: in `cfgC3` the expand refill emits the
child value 2 although the shard bitmap contains 2 — expand-mode children are
not checked for absence. -/
theorem expand_emits_present_child :
    (refill_lane cfgC3 lnW).buf = [0, 4, 8, 12, 0, 1, 2, 3, 1, 5, 9, 13, 4, 5, 6, 7] ∧
    cfgC3.bms 0 2 = true ∧ 2 ∈ (refill_lane cfgC3 lnW).buf := by
  refine ⟨by decide, by decide, by decide⟩

/-- C4: The BCW2 codec round-trips every structurally valid cursor, and
parsing an arbitrary token either fails or yields a structurally valid
cursor. -/
theorem cursor_codec_roundtrip (c : WindowCursor) (token : List Char)
    (h : cursor_valid c) :
    parse_cursor_bcw2 (make_cursor_bcw2 c) = some c ∧
    (parse_cursor_bcw2 token = none ∨
      ∃ c2, parse_cursor_bcw2 token = some c2 ∧ cursor_valid c2) :=
  ⟨make_parse_cursor c h, parse_cursor_bcw2_sound token⟩

/-- Witness for C4 at the concrete cursor `cW4` and the empty token. -/
theorem cursor_codec_roundtrip_witness :
    parse_cursor_bcw2 (make_cursor_bcw2 cW4) = some cW4 ∧
    (parse_cursor_bcw2 [] = none ∨
      ∃ c2, parse_cursor_bcw2 [] = some c2 ∧ cursor_valid c2) :=
  cursor_codec_roundtrip cW4 [] (by decide)

/-- C5: In mode 0 a refill scans exactly `[v0, vf)` (resuming at
`after + 1`), buffers exactly the surviving keys in order, and persists
`after = vf - 1`, the last key scanned — the refill itself neither skips nor
re-scans; (the emission loop later overwrites `after` with each drained
value, which is what a cursor taken at a page boundary stores). -/
theorem refill_mode0_scan_exact (cfg : EngCfg) (ln : LaneRt)
    (h0 : cfg.kout = cfg.k0) (ha : ln.active = true)
    (h1 : ln.shardIdx < cfg.shard_starts.length)
    (h2 : ln.shardIdx < cfg.shard_ends.length)
    (hv : (if ln.after = U64MAX then cfg.shard_starts.getD ln.shardIdx 0
           else ln.after + 1) ≤ cfg.shard_ends.getD ln.shardIdx 0) :
    ∃ vf,
      (if ln.after = U64MAX then cfg.shard_starts.getD ln.shardIdx 0
       else ln.after + 1) ≤ vf ∧
      vf ≤ cfg.shard_ends.getD ln.shardIdx 0 ∧
      (refill_lane cfg ln).buf =
        (List.range' (if ln.after = U64MAX then cfg.shard_starts.getD ln.shardIdx 0
            else ln.after + 1)
          (vf - (if ln.after = U64MAX then cfg.shard_starts.getD ln.shardIdx 0
            else ln.after + 1))).filter
          (keep0 (cfg.bms ln.shardIdx) cfg.kout cfg.gcMinPct cfg.gcMaxPct
            cfg.substring_set cfg.patterns) ∧
      ((refill_lane cfg ln).active = true ↔ vf ≠ cfg.shard_ends.getD ln.shardIdx 0) ∧
      ((refill_lane cfg ln).active = true → (refill_lane cfg ln).after = vf - 1) ∧
      (vf = cfg.shard_ends.getD ln.shardIdx 0 ∨
        (refill_lane cfg ln).buf.length = cfg.refill_chunk) :=
  refill_lane_mode0_spec cfg ln h0 ha h1 h2 hv

/-- Witness for C5: the `cfgW` lane refill. -/
theorem refill_mode0_scan_exact_witness :
    ∃ vf,
      (if lnW.after = U64MAX then cfgW.shard_starts.getD lnW.shardIdx 0
       else lnW.after + 1) ≤ vf ∧
      vf ≤ cfgW.shard_ends.getD lnW.shardIdx 0 ∧
      (refill_lane cfgW lnW).buf =
        (List.range' (if lnW.after = U64MAX then cfgW.shard_starts.getD lnW.shardIdx 0
            else lnW.after + 1)
          (vf - (if lnW.after = U64MAX then cfgW.shard_starts.getD lnW.shardIdx 0
            else lnW.after + 1))).filter
          (keep0 (cfgW.bms lnW.shardIdx) cfgW.kout cfgW.gcMinPct cfgW.gcMaxPct
            cfgW.substring_set cfgW.patterns) ∧
      ((refill_lane cfgW lnW).active = true ↔ vf ≠ cfgW.shard_ends.getD lnW.shardIdx 0) ∧
      ((refill_lane cfgW lnW).active = true → (refill_lane cfgW lnW).after = vf - 1) ∧
      (vf = cfgW.shard_ends.getD lnW.shardIdx 0 ∨
        (refill_lane cfgW lnW).buf.length = cfgW.refill_chunk) :=
  refill_mode0_scan_exact cfgW lnW rfl rfl (by decide) (by decide) (by decide)

/-- Counterexample to C5 as written: in the `cfgC5` run the refill scanned
keys 0..15 (the loop stopped at `vf = 16`), but the cursor taken at the page
boundary stores `after = 2` — the last *emitted* key, not the last scanned
key 15 —, so resumption re-scans keys 3..15. -/
theorem cursor_after_is_last_emitted :
    (engineRun cfgC5 300 none).map (fun r => (r.1, r.2.1,
        r.2.2.map (fun c => c.lanes.map (fun l => l.after))))
      = some ([0, 1], true, some [2]) ∧
    (refill0Loop (fun _ => false) 3 0 100 false [] 48 16 0 []).2 = 16 ∧
    (2 : Nat) ≠ 16 - 1 := by
  refine ⟨by decide, by decide, by decide⟩

/-- C6: A missing or undeserializable shard during a sharded membership query
does NOT abort the run: the worker's `if (!sbm) continue;` leaves the default
flag `0` for every key of that shard and the process exits 0 — here every
shard load fails, yet the run reports `A…A → 0` with success. -/
theorem membership_load_failure_exit0 :
    runMembership 16 [(0, 4294967296)] (fun _ => none) [kA16]
      = Except.ok [(kA16, '0')] := by
  decide

/-- C7: A run carrying a cursor proceeds only if the cursor's `numShards`,
`k0`, `kout`, `window`, `burst` and random-access flag all equal the
request's; on success the seed comes from the cursor (0 remapped to 1),
ignoring the argument-derived seed. -/
theorem cursor_resume_checks (token : List Char) (ns k0 kout w b : Nat)
    (ra : Bool) (s0 : Nat) (r : ResumeOut)
    (h : cursor_resume token ns k0 kout w b ra s0 = some r) :
    ∃ c, parse_cursor_bcw2 token = some c ∧ c.numShards = ns ∧ c.k0 = k0 % 256 ∧
      c.kout = kout % 256 ∧ c.window = w ∧ c.burst = b ∧
      decide (¬ (c.flags &&& 1 = 0)) = ra ∧
      (ra = true → r.seed = (if c.seed = 0 then 1 else c.seed)) ∧
      (∀ s1, cursor_resume token ns k0 kout w b ra s1 =
        some { r with seed := if ra then r.seed else s1 }) :=
  cursor_resume_some token ns k0 kout w b ra s0 r h

/-- Witness for C7: resuming with the serialized `cW7` against a matching
request; the client-supplied seed 99 is ignored. -/
theorem cursor_resume_checks_witness :
    ∃ c, parse_cursor_bcw2 (make_cursor_bcw2 cW7) = some c ∧ c.numShards = 4 ∧
      c.k0 = 18 % 256 ∧ c.kout = 19 % 256 ∧ c.window = 2 ∧ c.burst = 1 ∧
      decide (¬ (c.flags &&& 1 = 0)) = true ∧
      (true = true → rW7.seed = (if c.seed = 0 then 1 else c.seed)) ∧
      (∀ s1, cursor_resume (make_cursor_bcw2 cW7) 4 18 19 2 1 true s1 =
        some { rW7 with seed := if true then rW7.seed else s1 }) := by
  refine cursor_resume_checks (make_cursor_bcw2 cW7) 4 18 19 2 1 true 99 rW7 ?_
  unfold cursor_resume
  rw [make_parse_cursor cW7 (by decide)]
  dsimp only
  rw [if_neg (by decide), if_neg (by decide), if_neg (by decide),
    if_neg (by decide), if_neg (by decide)]
  decide

/-- C8: With a well-formed shard index, the membership query (1) given that
every nonempty line encodes (and its key falls in a loadable owning shard),
emits one `"<kmer>\t<flag>"` line per NONEMPTY input line in input order,
flag `'1'` iff the owning shard's bitmap contains the encoded key; and (2)
aborts with exit 3 whenever any nonempty input line has length `≠ k` or a
non-ACGT character.  Empty lines are silently skipped (not rejected,
producing no line). -/
theorem membership_output_lines (k : Nat) (shards : List (Nat × Nat))
    (loads : Nat → Option (Nat → Bool)) (lines : List (List Char))
    (enc : List Char → Nat) (own : List Char → Nat)
    (bmOf : List Char → (Nat → Bool))
    (hne : shards.isEmpty = false)
    (hranges : ∀ sh ∈ shards, sh.1 < sh.2)
    (hsorted : ∀ i j, i < j → j < shards.length →
      (shards.getD i (0, 0)).2 ≤ (shards.getD j (0, 0)).1) :
    ((∀ l ∈ lines, l.isEmpty = false → encode_kmer_sv l k = some (enc l)) →
     (∀ l ∈ lines, l.isEmpty = false → own l < shards.length ∧
       (shards.getD (own l) (0, 0)).1 ≤ enc l ∧
       enc l < (shards.getD (own l) (0, 0)).2) →
     (∀ l ∈ lines, l.isEmpty = false → loads (own l) = some (bmOf l)) →
     runMembership k shards loads lines =
       Except.ok ((lines.filter (fun l => !l.isEmpty)).map
         (fun l => (l, if bmOf l (enc l) then '1' else '0')))) ∧
    (∀ l ∈ lines, l.isEmpty = false →
      (l.length ≠ k ∨ ∃ c ∈ l, lut_digit c = 255) →
      runMembership k shards loads lines = Except.error 3) :=
  ⟨fun henc hown hload => runMembership_spec k shards loads lines enc own bmOf
      hne hranges hsorted henc hown hload,
   fun l hl hlne hbad => runMembership_error3 k shards loads lines l hl hlne hbad⟩

/-- Witness for C8: one 16-mer against a single shard holding key 0 (the
success branch of the conjunction evaluates to `A^16 → '1'`; the rejection
branch is vacuous for this input but exercised by the concrete exit-3 run
`membership_invalid_line_exit3` below). -/
theorem membership_output_lines_witness :
    ((∀ l ∈ [kA16], l.isEmpty = false → encode_kmer_sv l 16 = some 0) →
     (∀ l ∈ [kA16], l.isEmpty = false → 0 < ([(0, 4294967296)] :
         List (Nat × Nat)).length ∧
       (([(0, 4294967296)] : List (Nat × Nat)).getD 0 (0, 0)).1 ≤ 0 ∧
       0 < (([(0, 4294967296)] : List (Nat × Nat)).getD 0 (0, 0)).2) →
     (∀ l ∈ [kA16], l.isEmpty = false →
       (fun _ : Nat => some bmW) 0 = some bmW) →
     runMembership 16 [(0, 4294967296)] (fun _ => some bmW) [kA16] =
       Except.ok (([kA16].filter (fun l => !l.isEmpty)).map
         (fun l => (l, if bmW 0 then '1' else '0')))) ∧
    (∀ l ∈ [kA16], l.isEmpty = false →
      (l.length ≠ 16 ∨ ∃ c ∈ l, lut_digit c = 255) →
      runMembership 16 [(0, 4294967296)] (fun _ => some bmW) [kA16] =
        Except.error 3) := by
  exact membership_output_lines 16 [(0, 4294967296)] (fun _ => some bmW) [kA16]
    (fun _ => 0) (fun _ => 0) (fun _ => bmW) rfl (by decide)
    (by intro i j hij hj; simp at hj; omega)

/-- The exit-3 path on a concrete invalid (nonempty, length 3 ≠ 16) line. -/
theorem membership_invalid_line_exit3 :
    runMembership 16 [(0, 4294967296)] (fun _ => some bmW)
      [['A', 'X', 'C']] = Except.error 3 := by
  decide

/-- Counterexample to C8 as written: the empty line has length `0 ≠ k` yet
the run is not rejected, and only one output line is produced for two input
lines. -/
theorem membership_empty_line_skipped :
    runMembership 16 [(0, 4294967296)] (fun _ => some (fun _ => false))
      [[], kA16] = Except.ok [(kA16, '0')] ∧
    ([[], kA16] : List (List Char)).length = 2 ∧
    (Except.ok [(kA16, '0')] : Except Nat (List (List Char × Char))) ≠
      Except.error 3 := by
  refine ⟨by decide, by decide, by decide⟩

/-- C9: The dense writer stores key `i` as bit `i &&& 7` of payload byte
`i >>> 3` and a dense-aware reader recovers exactly the written one-bits; but
the query-side `load_kbit_portable` accepts only `flags = 2` files, so every
`flags = 1` dense file the generator writes is rejected rather than read
back. -/
theorem kbit_dense_file_bits (ones : Nat → Bool) (total o k sd i : Nat)
    (h : i < total) :
    ((dense_payload ones total).getD (i >>> 3) 0).testBit (i &&& 7) = ones i ∧
    load_kbit_portable (kbit_dense_file ones total o k sd) = none :=
  ⟨dense_payload_testBit ones total i h, load_rejects_dense ones total o k sd⟩

/-- Witness for C9: a 64-key dense file holding exactly key 1. -/
theorem kbit_dense_file_bits_witness :
    ((dense_payload (fun j => decide (j = 1)) 64).getD (1 >>> 3) 0).testBit (1 &&& 7)
        = (fun j => decide (j = 1)) 1 ∧
    load_kbit_portable (kbit_dense_file (fun j => decide (j = 1)) 64 1 3 0) = none :=
  kbit_dense_file_bits (fun j => decide (j = 1)) 64 1 3 0 1 (by decide)

/-- Counterexample to C9 as written: the generated dense file (flags byte 1 at
offset 40) is rejected by the query-side loader. -/
theorem kbit_dense_load_rejected :
    load_kbit_portable (kbit_dense_file (fun j => decide (j = 1)) 64 1 3 0) = none ∧
    (kbit_dense_file (fun j => decide (j = 1)) 64 1 3 0).getD 40 0 = 1 ∧
    (kbit_dense_file (fun j => decide (j = 1)) 64 1 3 0).getD 0 0 = 75 := by
  refine ⟨by decide, by decide, by decide⟩

/-- C10: From every well-formed state the expansion machine reaches
exhaustion within `stTotal d = (d+1)·4^d` applications of `advance_state`,
so the per-parent loop of `refill_lane` terminates on every anchor. -/
theorem expansion_loop_terminates (d : Nat) (s : ExpSt) (hv : validSt d s) :
    ∃ n, n ≤ stTotal d ∧ advance_iter d n s = none := by
  have hlt := stRank_lt_stTotal hv
  refine ⟨stTotal d - stRank d s, by omega, ?_⟩
  have he : stTotal d - stRank d s = (stTotal d - stRank d s - 1) + 1 := by omega
  rw [he]
  exact advance_iter_exhausts _ s hv (by omega)

/-- Witness for C10 at `d = 2` from the initial state. -/
theorem expansion_loop_terminates_witness :
    ∃ n, n ≤ stTotal 2 ∧ advance_iter 2 n ⟨2, 0, 0⟩ = none :=
  expansion_loop_terminates 2 ⟨2, 0, 0⟩ (by decide)

end BarcodesDB
